import Mathlib

/-!
# mpags-cipher: transliteration and command-line parsing

A shallow embedding of `src/mpags-cipher.cpp`.

* A C++ `char` is a Lean `Char`: the byte with value `b` is the character with
  code `b`, so the 256 byte values are the characters with code below 256.
* A `std::string` is a Lean `String`, a `std::vector<std::string>` a
  `List String`, the standard input stream the `List Char` still to be read.
* The reference parameters of `processCommandLine` are passed as a record and
  returned, together with the `bool` result and the text sent to `std::cerr`.
-/

set_option autoImplicit false

namespace MpagsCipher

/-! ## Character classification of the standard library, "C" locale

The program never calls `setlocale`, so `<cctype>` and the stream work in the
"C" locale. -/

/-- `std::isalpha` in the "C" locale: exactly the 52 ASCII letters. For a `char`
whose value is not representable as `unsigned char` (bytes 128..255 where
`char` is signed) the table of the "C" locale holds no letter. -/
def isalpha (c : Char) : Bool :=
  (65 ≤ c.toNat && c.toNat ≤ 90) || (97 ≤ c.toNat && c.toNat ≤ 122)

/-- `std::toupper` in the "C" locale: a lowercase ASCII letter goes to the
letter 32 below it, every other value is returned unchanged. -/
def toupper (c : Char) : Char :=
  if 97 ≤ c.toNat ∧ c.toNat ≤ 122 then Char.ofNat (c.toNat - 32) else c

/-- `std::isspace` in the "C" locale: space, `\t`, `\n`, `\v`, `\f`, `\r`. -/
def isspace (c : Char) : Bool :=
  c.toNat = 32 || (9 ≤ c.toNat && c.toNat ≤ 13)

/-! ## transformChar (lines 19-52) -/

/-- `std::string transformChar(const char in_char)`. -/
def transformChar (in_char : Char) : String :=
  if isalpha in_char then
    String.singleton (toupper in_char)
  else if in_char = '0' then "ZERO"
  else if in_char = '1' then "ONE"
  else if in_char = '2' then "TWO"
  else if in_char = '3' then "THREE"
  else if in_char = '4' then "FOUR"
  else if in_char = '5' then "FIVE"
  else if in_char = '6' then "SIX"
  else if in_char = '7' then "SEVEN"
  else if in_char = '8' then "EIGHT"
  else if in_char = '9' then "NINE"
  else ""

/-! ## processCommandLine (lines 73-116) -/

/-- The four reference parameters of `processCommandLine`. -/
structure Options where
  helpRequested : Bool
  versionRequested : Bool
  inputFile : String
  outputFile : String
  deriving DecidableEq, Repr

/-- What a call of `processCommandLine` leaves behind: the `bool` it returns
(`true` is `return 1`, failure), the reference parameters, and the text it
wrote to `std::cerr`. -/
structure ParseResult where
  failed : Bool
  opts : Options
  cerr : String
  deriving DecidableEq, Repr

/-- The `for` loop of `processCommandLine`, entered with index `i` and the
current values `st` of the reference parameters. Every element access carries
the proof that the index is below `cmdLineArgs.size()`. The `std::size_t`
expression `nCmdLineArgs - 1` is evaluated only in the loop body, where
`i < nCmdLineArgs`, so the subtraction does not wrap. The `++i` of the file
branches and the `++i` of the loop header together give `i + 1 + 1`. -/
def processLoop (cmdLineArgs : List String) (i : Nat) (st : Options) : ParseResult :=
  if h : i < cmdLineArgs.length then
    if cmdLineArgs[i] = "-h" ∨ cmdLineArgs[i] = "--help" then
      processLoop cmdLineArgs (i + 1) { st with helpRequested := true }
    else if cmdLineArgs[i] = "--version" then
      processLoop cmdLineArgs (i + 1) { st with versionRequested := true }
    else if cmdLineArgs[i] = "-i" then
      if h1 : i = cmdLineArgs.length - 1 then
        { failed := true, opts := st, cerr := "[error] -i requires a filename argument\n" }
      else
        have h2 : i + 1 < cmdLineArgs.length := by omega
        processLoop cmdLineArgs (i + 1 + 1) { st with inputFile := cmdLineArgs[i + 1] }
    else if cmdLineArgs[i] = "-o" then
      if h1 : i = cmdLineArgs.length - 1 then
        { failed := true, opts := st, cerr := "[error] -o requires a filename argument\n" }
      else
        have h2 : i + 1 < cmdLineArgs.length := by omega
        processLoop cmdLineArgs (i + 1 + 1) { st with outputFile := cmdLineArgs[i + 1] }
    else
      { failed := true, opts := st,
        cerr := "[error] unknown argument '" ++ cmdLineArgs[i] ++ "'\n" }
  else
    { failed := false, opts := st, cerr := "" }
termination_by cmdLineArgs.length - i
decreasing_by all_goals simp_wf; all_goals omega

/-- `bool processCommandLine(cmdLineArgs, helpRequested, versionRequested,
inputFile, outputFile)`: the loop starts at index 1. -/
def processCommandLine (cmdLineArgs : List String) (st : Options) : ParseResult :=
  processLoop cmdLineArgs 1 st

/-! ## main (lines 118-191) -/

/-- What a run of the program leaves behind: the value `main` returns and the
text written to `std::cout` and to `std::cerr`. -/
structure Outcome where
  exitStatus : Nat
  cout : String
  cerr : String
  deriving DecidableEq, Repr

/-- The text `main` sends to `std::cout` when help is requested (lines 135-145),
the closing `std::endl` included. -/
def helpText : String :=
  "Usage: mpags-cipher [-h/--help] [--version] [-i <file>] [-o <file>]\n\n"
  ++ "Encrypts/Decrypts input alphanumeric text using classical ciphers\n\n"
  ++ "Available options:\n\n"
  ++ "  -h|--help        Print this help message and exit\n\n"
  ++ "  --version        Print version information\n\n"
  ++ "  -i FILE          Read text to be processed from FILE\n"
  ++ "                   Stdin will be used if not supplied\n\n"
  ++ "  -o FILE          Write processed text to FILE\n"
  ++ "                   Stdout will be used if not supplied\n\n"
  ++ "\n"

/-- `std::cin >> inputChar` for a `char`: formatted extraction first discards
leading whitespace, then takes one character; it fails at end of input. The
result is the character read and the rest of the stream. -/
def extractChar (cin : List Char) : Option (Char × List Char) :=
  match cin.dropWhile isspace with
  | [] => none
  | c :: rest => some (c, rest)

/-- `while (std::cin >> inputChar) { inputText += transformChar(inputChar); }`,
entered with the stream `cin` and the accumulator `inputText`; the result is
the accumulator when the extraction fails. -/
def readLoop (cin : List Char) (inputText : String) : String :=
  match h : extractChar cin with
  | none => inputText
  | some (inputChar, rest) => readLoop rest (inputText ++ transformChar inputChar)
termination_by cin.length
decreasing_by
  simp_wf
  have hle := (List.dropWhile_sublist isspace (l := cin)).length_le
  unfold extractChar at h
  split at h
  · cases h
  · rename_i c r heq
    cases h
    rw [heq] at hle
    simp only [List.length_cons] at hle
    omega

/-- The options as `main` initialises them before the call (lines 124-127). -/
def initialOptions : Options :=
  { helpRequested := false, versionRequested := false, inputFile := "", outputFile := "" }

/-- `int main(int argc, char* argv[])`, with `argv[0..argc-1]` as a list and the
content of standard input as the list of its characters. -/
def main (argv : List String) (cin : List Char) : Outcome :=
  let r := processCommandLine argv initialOptions
  if r.failed = true then
    { exitStatus := 1, cout := "", cerr := r.cerr }
  else if r.opts.helpRequested = true then
    { exitStatus := 0, cout := helpText, cerr := r.cerr }
  else if r.opts.versionRequested = true then
    { exitStatus := 0, cout := "0.1.0" ++ "\n", cerr := r.cerr }
  else
    let warnIn : String :=
      if r.opts.inputFile ≠ "" then
        "[warning] input from file ('" ++ r.opts.inputFile ++ "') not implemented yet, using stdin\n"
      else ""
    let inputText := readLoop cin ""
    let warnOut : String :=
      if r.opts.outputFile ≠ "" then
        "[warning] output to file ('" ++ r.opts.outputFile ++ "') not implemented yet, using stdout\n"
      else ""
    { exitStatus := 0, cout := inputText ++ "\n", cerr := r.cerr ++ warnIn ++ warnOut }

/-! ## Vocabulary of the specification -/

/-- An ASCII alphabetic letter, `'a'..'z'` or `'A'..'Z'`. -/
def IsAsciiLetter (c : Char) : Prop :=
  ('a' ≤ c ∧ c ≤ 'z') ∨ ('A' ≤ c ∧ c ≤ 'Z')

/-- An ASCII digit, `'0'..'9'`. -/
def IsAsciiDigit (c : Char) : Prop :=
  '0' ≤ c ∧ c ≤ '9'

instance (c : Char) : Decidable (IsAsciiLetter c) := by
  unfold IsAsciiLetter; infer_instance

instance (c : Char) : Decidable (IsAsciiDigit c) := by
  unfold IsAsciiDigit; infer_instance

/-- The loop of `processCommandLine` seen from the tokens not yet scanned:
`parseTokens (cmdLineArgs.drop i) st` is `processLoop cmdLineArgs i st`
(`processLoop_eq_parseTokens`). It is structurally recursive, so it evaluates
on concrete argument vectors. -/
def parseTokens : List String → Options → ParseResult
  | [], st => { failed := false, opts := st, cerr := "" }
  | t :: rest, st =>
    if t = "-h" ∨ t = "--help" then
      parseTokens rest { st with helpRequested := true }
    else if t = "--version" then
      parseTokens rest { st with versionRequested := true }
    else if t = "-i" then
      match rest with
      | [] => { failed := true, opts := st, cerr := "[error] -i requires a filename argument\n" }
      | x :: rest2 => parseTokens rest2 { st with inputFile := x }
    else if t = "-o" then
      match rest with
      | [] => { failed := true, opts := st, cerr := "[error] -o requires a filename argument\n" }
      | x :: rest2 => parseTokens rest2 { st with outputFile := x }
    else
      { failed := true, opts := st, cerr := "[error] unknown argument '" ++ t ++ "'\n" }

/-- One option together with its argument: `["-h"]`, `["--help"]`,
`["--version"]`, `["-i", x]` or `["-o", x]`, with `x` any token. -/
def IsGroup (g : List String) : Prop :=
  g = ["-h"] ∨ g = ["--help"] ∨ g = ["--version"] ∨ (∃ x, g = ["-i", x]) ∨ (∃ x, g = ["-o", x])

/-- The tokens can be split, left to right, into groups. -/
def SplitsIntoGroups (toks : List String) : Prop :=
  ∃ gs : List (List String), gs.flatten = toks ∧ ∀ g ∈ gs, IsGroup g

/-- The five option strings the parser recognises. -/
def IsOption (t : String) : Prop :=
  t = "-h" ∨ t = "--help" ∨ t = "--version" ∨ t = "-i" ∨ t = "-o"

instance (t : String) : Decidable (IsOption t) := by
  unfold IsOption; infer_instance

/-- The token at which a failing scan stops: a token that is no option, or a
`-i`/`-o` that is the last token. -/
def Offending (toks : List String) (k : Nat) : Prop :=
  ∃ t, toks[k]? = some t ∧
    (¬ IsOption t ∨ ((t = "-i" ∨ t = "-o") ∧ k + 1 = toks.length))

/-- The transliteration of a character sequence in the words of the
specification: the concatenation, in input order, of the results of
`transformChar` on each character. -/
def transliterate : List Char → String
  | [] => ""
  | c :: cs => transformChar c ++ transliterate cs

/-- The warning of lines 167-168, for the file name `path`. -/
def inputFileWarning (path : String) : String :=
  "[warning] input from file ('" ++ path ++ "') not implemented yet, using stdin\n"

/-- The warning of lines 182-183, for the file name `path`. -/
def outputFileWarning (path : String) : String :=
  "[warning] output to file ('" ++ path ++ "') not implemented yet, using stdout\n"

/-- The tokens that the scan of `processCommandLine` reads in option position,
in order: the token after a `-i` or `-o` is skipped as its file name, and the
scan reads nothing after a token that is no option. -/
def optionTokens : List String → List String
  | [] => []
  | t :: rest =>
    if t = "-h" ∨ t = "--help" ∨ t = "--version" then
      t :: optionTokens rest
    else if t = "-i" ∨ t = "-o" then
      match rest with
      | [] => [t]
      | _ :: rest2 => t :: optionTokens rest2
    else
      [t]

/-- The loop of `processCommandLine` run under a monitor. Element reads are
unchecked in C++, so here a read `cmdLineArgs[k]` with `k` out of bounds stops
the run with `none`, and so does an evaluation of the `std::size_t` expression
`nCmdLineArgs - 1` when `nCmdLineArgs < 2`. A run that is not stopped returns
the result of the loop together with the values of `i` at which the loop body
was entered, in order. -/
def processLoopMonitored (cmdLineArgs : List String) (i : Nat) (st : Options) :
    Option (ParseResult × List Nat) :=
  if h : i < cmdLineArgs.length then
    match cmdLineArgs[i]? with
    | none => none
    | some t =>
      if t = "-h" ∨ t = "--help" then
        (processLoopMonitored cmdLineArgs (i + 1) { st with helpRequested := true }).map
          (fun r => (r.1, i :: r.2))
      else if t = "--version" then
        (processLoopMonitored cmdLineArgs (i + 1) { st with versionRequested := true }).map
          (fun r => (r.1, i :: r.2))
      else if t = "-i" then
        if cmdLineArgs.length < 2 then none
        else if i = cmdLineArgs.length - 1 then
          some ({ failed := true, opts := st,
                  cerr := "[error] -i requires a filename argument\n" }, [i])
        else
          match cmdLineArgs[i + 1]? with
          | none => none
          | some x =>
            (processLoopMonitored cmdLineArgs (i + 1 + 1) { st with inputFile := x }).map
              (fun r => (r.1, i :: r.2))
      else if t = "-o" then
        if cmdLineArgs.length < 2 then none
        else if i = cmdLineArgs.length - 1 then
          some ({ failed := true, opts := st,
                  cerr := "[error] -o requires a filename argument\n" }, [i])
        else
          match cmdLineArgs[i + 1]? with
          | none => none
          | some x =>
            (processLoopMonitored cmdLineArgs (i + 1 + 1) { st with outputFile := x }).map
              (fun r => (r.1, i :: r.2))
      else
        some ({ failed := true, opts := st,
                cerr := "[error] unknown argument '" ++ t ++ "'\n" }, [i])
  else
    some ({ failed := false, opts := st, cerr := "" }, [])
termination_by cmdLineArgs.length - i
decreasing_by all_goals simp_wf; all_goals omega

/-- What the monitored run must deliver from index `i`: it is not stopped, its
result is `res`, and the indices `visited` at which the body was entered are at
most `cmdLineArgs.size() - i` many, lie in `[i, cmdLineArgs.size())` and
strictly increase. -/
def SafeRun (cmdLineArgs : List String) (i : Nat) (res : ParseResult)
    (run : Option (ParseResult × List Nat)) : Prop :=
  ∃ visited : List Nat, run = some (res, visited)
    ∧ visited.length ≤ cmdLineArgs.length - i
    ∧ (∀ k ∈ visited, i ≤ k ∧ k < cmdLineArgs.length)
    ∧ visited.Pairwise (fun a b => a < b)

/-- The read loop of a driver that does not skip whitespace: every character of
the input, whitespace included, is passed to `transformChar` and the result
appended to the accumulator. It is the driver that claim C19 compares the read
loop of `main` with. -/
def readLoopNoSkip (cin : List Char) (inputText : String) : String :=
  cin.foldl (fun acc c => acc ++ transformChar c) inputText

/-- An uppercase ASCII letter, `'A'..'Z'`. -/
def IsUpperLetter (c : Char) : Prop :=
  'A' ≤ c ∧ c ≤ 'Z'

instance (c : Char) : Decidable (IsUpperLetter c) := by
  unfold IsUpperLetter; infer_instance

/-! ## The transliterator -/

theorem isalpha_iff (c : Char) : isalpha c = true ↔ IsAsciiLetter c := by
  have e1 : ('a' ≤ c ∧ c ≤ 'z') ↔ (97 ≤ c.toNat ∧ c.toNat ≤ 122) := Iff.rfl
  have e2 : ('A' ≤ c ∧ c ≤ 'Z') ↔ (65 ≤ c.toNat ∧ c.toNat ≤ 90) := Iff.rfl
  unfold IsAsciiLetter isalpha
  rw [e1, e2]
  simp only [Bool.or_eq_true, Bool.and_eq_true, decide_eq_true_eq]
  tauto

theorem toupper_eq_toUpper (c : Char) : toupper c = c.toUpper := by
  unfold toupper Char.toUpper
  rfl

theorem transformChar_of_letter (c : Char) (h : IsAsciiLetter c) :
    transformChar c = String.singleton c.toUpper
      ∧ (transformChar c).length = 1
      ∧ (transformChar c).toList = [c.toUpper]
      ∧ ('A' ≤ c.toUpper ∧ c.toUpper ≤ 'Z')
      ∧ (('A' ≤ c ∧ c ≤ 'Z') → c.toUpper = c)
      ∧ (('a' ≤ c ∧ c ≤ 'z') → c.toUpper.toNat + 32 = c.toNat) := by
  have hc : Char.ofNat c.toNat = c := Char.ofNat_toNat c
  rcases h with ⟨h1, h2⟩ | ⟨h1, h2⟩
  · have h1n : 97 ≤ c.toNat := h1
    have h2n : c.toNat ≤ 122 := h2
    rw [← hc]
    generalize c.toNat = n at h1n h2n
    interval_cases n <;> decide
  · have h1n : 65 ≤ c.toNat := h1
    have h2n : c.toNat ≤ 90 := h2
    rw [← hc]
    generalize c.toNat = n at h1n h2n
    interval_cases n <;> decide

theorem digit_cases (c : Char) (h : IsAsciiDigit c) :
    c ∈ ['0', '1', '2', '3', '4', '5', '6', '7', '8', '9'] := by
  have hc : Char.ofNat c.toNat = c := Char.ofNat_toNat c
  have h1n : 48 ≤ c.toNat := h.1
  have h2n : c.toNat ≤ 57 := h.2
  rw [← hc]
  generalize c.toNat = n at h1n h2n
  interval_cases n <;> decide

theorem transformChar_other (c : Char) (hl : ¬ IsAsciiLetter c) (hd : ¬ IsAsciiDigit c) :
    transformChar c = "" := by
  have ha : isalpha c = false := by
    rw [← Bool.not_eq_true, isalpha_iff]
    exact hl
  have hne : ∀ d : Char, IsAsciiDigit d → c ≠ d := by
    intro d hdd hcd
    exact hd (hcd ▸ hdd)
  simp only [transformChar, ha, hne '0' (by decide), hne '1' (by decide), hne '2' (by decide),
    hne '3' (by decide), hne '4' (by decide), hne '5' (by decide), hne '6' (by decide),
    hne '7' (by decide), hne '8' (by decide), hne '9' (by decide)]
  simp

/-- C1. For every ASCII letter `c`, lowercase or uppercase, `transformChar c` is
the one-character string holding the uppercase form of `c`: its length is 1, its
character is a letter of `'A'..'Z'`, which is `c` itself when `c` is uppercase
and the letter 32 code points below `c` when `c` is lowercase. -/
theorem transformChar_letter (c : Char) (h : IsAsciiLetter c) :
    transformChar c = String.singleton c.toUpper
      ∧ (transformChar c).length = 1
      ∧ (transformChar c).toList = [c.toUpper]
      ∧ ('A' ≤ c.toUpper ∧ c.toUpper ≤ 'Z')
      ∧ (('A' ≤ c ∧ c ≤ 'Z') → c.toUpper = c)
      ∧ (('a' ≤ c ∧ c ≤ 'z') → c.toUpper.toNat + 32 = c.toNat) :=
  transformChar_of_letter c h

theorem transformChar_letter_witness :
    IsAsciiLetter 'q' ∧ transformChar 'q' = String.singleton 'Q' :=
  ⟨by decide, (transformChar_letter 'q' (by decide)).1⟩

/-- C2. Each ASCII digit is transliterated to its English word in capitals, and
the ten characters listed are all the ASCII digits. -/
theorem transformChar_digit :
    transformChar '0' = "ZERO" ∧ transformChar '1' = "ONE"
      ∧ transformChar '2' = "TWO" ∧ transformChar '3' = "THREE"
      ∧ transformChar '4' = "FOUR" ∧ transformChar '5' = "FIVE"
      ∧ transformChar '6' = "SIX" ∧ transformChar '7' = "SEVEN"
      ∧ transformChar '8' = "EIGHT" ∧ transformChar '9' = "NINE"
      ∧ ∀ c, IsAsciiDigit c →
          c ∈ ['0', '1', '2', '3', '4', '5', '6', '7', '8', '9'] :=
  ⟨by decide, by decide, by decide, by decide, by decide, by decide,
    by decide, by decide, by decide, by decide, digit_cases⟩

/-- C3. `transformChar` is a total function, and on every character that is
neither an ASCII letter nor an ASCII digit it returns the empty string: on
space, on punctuation, on control characters and on every byte value from 128
up. -/
theorem transformChar_dropped :
    (∀ c : Char, ¬ IsAsciiLetter c → ¬ IsAsciiDigit c → transformChar c = "")
      ∧ (∀ c : Char, 128 ≤ c.toNat → transformChar c = "")
      ∧ (∀ c : Char, c.toNat < 48 → transformChar c = "")
      ∧ (∀ c : Char, transformChar c = "" → ¬ IsAsciiLetter c ∧ ¬ IsAsciiDigit c) := by
  refine ⟨transformChar_other, ?_, ?_, ?_⟩
  · intro c h
    apply transformChar_other
    · rintro (⟨h1, h2⟩ | ⟨h1, h2⟩)
      · have : c.toNat ≤ 122 := h2
        omega
      · have : c.toNat ≤ 90 := h2
        omega
    · rintro ⟨h1, h2⟩
      have : c.toNat ≤ 57 := h2
      omega
  · intro c h
    apply transformChar_other
    · rintro (⟨h1, h2⟩ | ⟨h1, h2⟩)
      · have : 97 ≤ c.toNat := h1
        omega
      · have : 65 ≤ c.toNat := h1
        omega
    · rintro ⟨h1, h2⟩
      have : 48 ≤ c.toNat := h1
      omega
  · intro c h
    constructor
    · intro hl
      have := (transformChar_of_letter c hl).2.1
      rw [h] at this
      exact absurd this (by decide)
    · intro hd
      have hmem := digit_cases c hd
      simp only [List.mem_cons, List.mem_singleton, List.not_mem_nil, or_false] at hmem
      rcases hmem with rfl | rfl | rfl | rfl | rfl | rfl | rfl | rfl | rfl | rfl <;>
        exact absurd h (by decide)

/-! ## The option parser -/

theorem parseTokens_cons (t : String) (rest : List String) (st : Options) :
    parseTokens (t :: rest) st =
      if t = "-h" ∨ t = "--help" then
        parseTokens rest { st with helpRequested := true }
      else if t = "--version" then
        parseTokens rest { st with versionRequested := true }
      else if t = "-i" then
        match rest with
        | [] => { failed := true, opts := st, cerr := "[error] -i requires a filename argument\n" }
        | x :: rest2 => parseTokens rest2 { st with inputFile := x }
      else if t = "-o" then
        match rest with
        | [] => { failed := true, opts := st, cerr := "[error] -o requires a filename argument\n" }
        | x :: rest2 => parseTokens rest2 { st with outputFile := x }
      else
        { failed := true, opts := st, cerr := "[error] unknown argument '" ++ t ++ "'\n" } := by
  cases rest <;> simp only [parseTokens]

theorem processLoop_eq_parseTokens (cmdLineArgs : List String) (i : Nat) (st : Options) :
    processLoop cmdLineArgs i st = parseTokens (cmdLineArgs.drop i) st := by
  generalize h : cmdLineArgs.length - i = n
  induction n using Nat.strong_induction_on generalizing i st with
  | _ n ih =>
    subst h
    rw [processLoop]
    by_cases hi : i < cmdLineArgs.length
    · rw [dif_pos hi, List.drop_eq_getElem_cons hi, parseTokens_cons]
      have step : ∀ st2, processLoop cmdLineArgs (i + 1) st2
          = parseTokens (cmdLineArgs.drop (i + 1)) st2 :=
        fun st2 => ih _ (by omega) (i + 1) st2 rfl
      by_cases hlast : i = cmdLineArgs.length - 1
      · have hnil : cmdLineArgs.drop (i + 1) = [] := List.drop_eq_nil_of_le (by omega)
        simp only [step, dif_pos hlast, hnil]
      · have hi2 : i + 1 < cmdLineArgs.length := by omega
        have step2 : ∀ st2, processLoop cmdLineArgs (i + 1 + 1) st2
            = parseTokens (cmdLineArgs.drop (i + 1 + 1)) st2 :=
          fun st2 => ih _ (by omega) (i + 1 + 1) st2 rfl
        simp only [step, step2, dif_neg hlast, List.drop_eq_getElem_cons hi2]
    · rw [dif_neg hi, List.drop_eq_nil_of_le (by omega), parseTokens]

theorem processCommandLine_eq (cmdLineArgs : List String) (st : Options) :
    processCommandLine cmdLineArgs st = parseTokens (cmdLineArgs.drop 1) st :=
  processLoop_eq_parseTokens cmdLineArgs 1 st

theorem parseTokens_help (t : String) (rest : List String) (st : Options)
    (h : t = "-h" ∨ t = "--help") :
    parseTokens (t :: rest) st = parseTokens rest { st with helpRequested := true } := by
  rw [parseTokens_cons, if_pos h]

theorem parseTokens_version (rest : List String) (st : Options) :
    parseTokens ("--version" :: rest) st
      = parseTokens rest { st with versionRequested := true } := by
  rw [parseTokens_cons]; simp

theorem parseTokens_i_nil (st : Options) :
    parseTokens ["-i"] st
      = { failed := true, opts := st, cerr := "[error] -i requires a filename argument\n" } := by
  rw [parseTokens_cons]; simp

theorem parseTokens_i_cons (x : String) (rest : List String) (st : Options) :
    parseTokens ("-i" :: x :: rest) st = parseTokens rest { st with inputFile := x } := by
  rw [parseTokens_cons]; simp

theorem parseTokens_o_nil (st : Options) :
    parseTokens ["-o"] st
      = { failed := true, opts := st, cerr := "[error] -o requires a filename argument\n" } := by
  rw [parseTokens_cons]; simp

theorem parseTokens_o_cons (x : String) (rest : List String) (st : Options) :
    parseTokens ("-o" :: x :: rest) st = parseTokens rest { st with outputFile := x } := by
  rw [parseTokens_cons]; simp

theorem parseTokens_unknown (t : String) (rest : List String) (st : Options)
    (h : ¬ IsOption t) :
    parseTokens (t :: rest) st
      = { failed := true, opts := st, cerr := "[error] unknown argument '" ++ t ++ "'\n" } := by
  unfold IsOption at h
  rw [parseTokens_cons]
  simp only [not_or] at h
  simp [h.1, h.2.1, h.2.2.1, h.2.2.2.1, h.2.2.2.2]

/-- A successful scan writes nothing to `std::cerr`. -/
theorem parseTokens_cerr (toks : List String) (st : Options)
    (h : (parseTokens toks st).failed = false) : (parseTokens toks st).cerr = "" := by
  induction toks, st using parseTokens.induct with
  | case1 st => rfl
  | case2 t rest st ht ih =>
    rw [parseTokens_help t rest st ht] at h ⊢
    exact ih h
  | case3 rest st _ ih =>
    rw [parseTokens_version] at h ⊢
    exact ih h
  | case4 st _ _ => rw [parseTokens_i_nil] at h; cases h
  | case5 st x rest2 _ _ ih =>
    rw [parseTokens_i_cons] at h ⊢
    exact ih h
  | case6 st _ _ _ => rw [parseTokens_o_nil] at h; cases h
  | case7 st x rest2 _ _ _ ih =>
    rw [parseTokens_o_cons] at h ⊢
    exact ih h
  | case8 t rest st h1 h2 h3 h4 =>
    rw [parseTokens_unknown t rest st (by unfold IsOption; tauto)] at h
    cases h

/-- After a successful scan of `L` the scan of `L ++ rest` goes on with `rest`,
from the options `L` left. -/
theorem parseTokens_append (L rest : List String) (st : Options)
    (h : (parseTokens L st).failed = false) :
    parseTokens (L ++ rest) st = parseTokens rest (parseTokens L st).opts := by
  induction L, st using parseTokens.induct with
  | case1 st => rfl
  | case2 t r st ht ih =>
    rw [parseTokens_help t r st ht] at h ⊢
    rw [List.cons_append, parseTokens_help t _ st ht]
    exact ih h
  | case3 r st _ ih =>
    rw [parseTokens_version] at h ⊢
    rw [List.cons_append, parseTokens_version]
    exact ih h
  | case4 st _ _ => rw [parseTokens_i_nil] at h; cases h
  | case5 st x rest2 _ _ ih =>
    rw [parseTokens_i_cons] at h ⊢
    rw [List.cons_append, List.cons_append, parseTokens_i_cons]
    exact ih h
  | case6 st _ _ _ => rw [parseTokens_o_nil] at h; cases h
  | case7 st x rest2 _ _ _ ih =>
    rw [parseTokens_o_cons] at h ⊢
    rw [List.cons_append, List.cons_append, parseTokens_o_cons]
    exact ih h
  | case8 t r st h1 h2 h3 h4 =>
    rw [parseTokens_unknown t r st (by unfold IsOption; tauto)] at h
    cases h

theorem parseTokens_group (g : List String) (st : Options) (hg : IsGroup g) :
    ∃ st2, ∀ rest, parseTokens (g ++ rest) st = parseTokens rest st2 := by
  rcases hg with rfl | rfl | rfl | ⟨x, rfl⟩ | ⟨x, rfl⟩
  · exact ⟨_, fun r => parseTokens_help "-h" r st (Or.inl rfl)⟩
  · exact ⟨_, fun r => parseTokens_help "--help" r st (Or.inr rfl)⟩
  · exact ⟨_, fun r => parseTokens_version r st⟩
  · exact ⟨_, fun r => parseTokens_i_cons x r st⟩
  · exact ⟨_, fun r => parseTokens_o_cons x r st⟩

theorem parseTokens_of_groups (gs : List (List String)) (st : Options)
    (h : ∀ g ∈ gs, IsGroup g) : (parseTokens gs.flatten st).failed = false := by
  induction gs generalizing st with
  | nil => rfl
  | cons g gs ih =>
    obtain ⟨st2, h2⟩ := parseTokens_group g st (h g (List.mem_cons_self _ _))
    rw [List.flatten_cons, h2]
    exact ih st2 (fun g hg => h g (List.mem_cons_of_mem _ hg))

theorem splits_cons (g toks : List String) (hg : IsGroup g) (h : SplitsIntoGroups toks) :
    SplitsIntoGroups (g ++ toks) := by
  obtain ⟨gs, rfl, hgs⟩ := h
  refine ⟨g :: gs, rfl, ?_⟩
  intro g2 hg2
  rcases List.mem_cons.1 hg2 with rfl | hmem
  · exact hg
  · exact hgs g2 hmem

theorem splits_of_parseTokens (toks : List String) (st : Options)
    (h : (parseTokens toks st).failed = false) : SplitsIntoGroups toks := by
  induction toks, st using parseTokens.induct with
  | case1 st => exact ⟨[], rfl, fun g hg => absurd hg (List.not_mem_nil g)⟩
  | case2 t r st ht ih =>
    rw [parseTokens_help t r st ht] at h
    exact splits_cons [t] r (by rcases ht with rfl | rfl <;> simp [IsGroup]) (ih h)
  | case3 r st _ ih =>
    rw [parseTokens_version] at h
    exact splits_cons ["--version"] r (by simp [IsGroup]) (ih h)
  | case4 st _ _ => rw [parseTokens_i_nil] at h; cases h
  | case5 st x rest2 _ _ ih =>
    rw [parseTokens_i_cons] at h
    exact splits_cons ["-i", x] rest2 (by simp [IsGroup]) (ih h)
  | case6 st _ _ _ => rw [parseTokens_o_nil] at h; cases h
  | case7 st x rest2 _ _ _ ih =>
    rw [parseTokens_o_cons] at h
    exact splits_cons ["-o", x] rest2 (by simp [IsGroup]) (ih h)
  | case8 t r st h1 h2 h3 h4 =>
    rw [parseTokens_unknown t r st (by unfold IsOption; tauto)] at h
    cases h

theorem parseTokens_ok_iff (toks : List String) (st : Options) :
    (parseTokens toks st).failed = false ↔ SplitsIntoGroups toks := by
  constructor
  · exact splits_of_parseTokens toks st
  · rintro ⟨gs, rfl, hgs⟩
    exact parseTokens_of_groups gs st hgs

theorem offending_cons (t : String) (toks : List String) (k : Nat)
    (h : Offending toks k) : Offending (t :: toks) (k + 1) := by
  obtain ⟨u, hu, hcase⟩ := h
  refine ⟨u, by simpa using hu, ?_⟩
  rcases hcase with h1 | ⟨h1, h2⟩
  · exact Or.inl h1
  · exact Or.inr ⟨h1, by simp [h2]⟩

/-- A failing scan stops at an offending token, and leaves the options that the
scan of the tokens before it leaves. -/
theorem parseTokens_failed (toks : List String) (st : Options)
    (h : (parseTokens toks st).failed = true) :
    ∃ k, k < toks.length ∧ Offending toks k
      ∧ parseTokens (toks.take k) st
          = { failed := false, opts := (parseTokens toks st).opts, cerr := "" } := by
  induction toks, st using parseTokens.induct with
  | case1 st => cases h
  | case2 t r st ht ih =>
    rw [parseTokens_help t r st ht] at h ⊢
    obtain ⟨k, hk, hoff, heq⟩ := ih h
    refine ⟨k + 1, by simpa using hk, offending_cons t r k hoff, ?_⟩
    rw [List.take_succ_cons, parseTokens_help t _ st ht]
    exact heq
  | case3 r st _ ih =>
    rw [parseTokens_version] at h ⊢
    obtain ⟨k, hk, hoff, heq⟩ := ih h
    refine ⟨k + 1, by simpa using hk, offending_cons _ r k hoff, ?_⟩
    rw [List.take_succ_cons, parseTokens_version]
    exact heq
  | case4 st _ _ =>
    exact ⟨0, by simp, ⟨"-i", rfl, Or.inr ⟨Or.inl rfl, rfl⟩⟩, by rw [parseTokens_i_nil]; rfl⟩
  | case5 st x rest2 _ _ ih =>
    rw [parseTokens_i_cons] at h ⊢
    obtain ⟨k, hk, hoff, heq⟩ := ih h
    refine ⟨k + 1 + 1, by simpa using hk,
      offending_cons _ _ _ (offending_cons x rest2 k hoff), ?_⟩
    rw [List.take_succ_cons, List.take_succ_cons, parseTokens_i_cons]
    exact heq
  | case6 st _ _ _ =>
    exact ⟨0, by simp, ⟨"-o", rfl, Or.inr ⟨Or.inr rfl, rfl⟩⟩, by rw [parseTokens_o_nil]; rfl⟩
  | case7 st x rest2 _ _ _ ih =>
    rw [parseTokens_o_cons] at h ⊢
    obtain ⟨k, hk, hoff, heq⟩ := ih h
    refine ⟨k + 1 + 1, by simpa using hk,
      offending_cons _ _ _ (offending_cons x rest2 k hoff), ?_⟩
    rw [List.take_succ_cons, List.take_succ_cons, parseTokens_o_cons]
    exact heq
  | case8 t r st h1 h2 h3 h4 =>
    have hno : ¬ IsOption t := by unfold IsOption; tauto
    refine ⟨0, by simp, ⟨t, by simp, Or.inl hno⟩, ?_⟩
    rw [parseTokens_unknown t r st hno]
    rfl

/-- A group that is not `["-i", x]` leaves `inputFile` as it is. -/
theorem parseTokens_group_keeps_inputFile (g : List String) (st : Options) (hg : IsGroup g)
    (hni : g.head? ≠ some "-i") :
    ∃ st2, st2.inputFile = st.inputFile
      ∧ ∀ rest, parseTokens (g ++ rest) st = parseTokens rest st2 := by
  rcases hg with rfl | rfl | rfl | ⟨x, rfl⟩ | ⟨x, rfl⟩
  · exact ⟨{ st with helpRequested := true }, rfl,
      fun r => parseTokens_help "-h" r st (Or.inl rfl)⟩
  · exact ⟨{ st with helpRequested := true }, rfl,
      fun r => parseTokens_help "--help" r st (Or.inr rfl)⟩
  · exact ⟨{ st with versionRequested := true }, rfl, fun r => parseTokens_version r st⟩
  · exact absurd rfl hni
  · exact ⟨{ st with outputFile := x }, rfl, fun r => parseTokens_o_cons x r st⟩

/-- A group that is not `["-o", x]` leaves `outputFile` as it is. -/
theorem parseTokens_group_keeps_outputFile (g : List String) (st : Options) (hg : IsGroup g)
    (hno : g.head? ≠ some "-o") :
    ∃ st2, st2.outputFile = st.outputFile
      ∧ ∀ rest, parseTokens (g ++ rest) st = parseTokens rest st2 := by
  rcases hg with rfl | rfl | rfl | ⟨x, rfl⟩ | ⟨x, rfl⟩
  · exact ⟨{ st with helpRequested := true }, rfl,
      fun r => parseTokens_help "-h" r st (Or.inl rfl)⟩
  · exact ⟨{ st with helpRequested := true }, rfl,
      fun r => parseTokens_help "--help" r st (Or.inr rfl)⟩
  · exact ⟨{ st with versionRequested := true }, rfl, fun r => parseTokens_version r st⟩
  · exact ⟨{ st with inputFile := x }, rfl, fun r => parseTokens_i_cons x r st⟩
  · exact absurd rfl hno

theorem parseTokens_keeps_inputFile (gs : List (List String)) (st : Options)
    (h : ∀ g ∈ gs, IsGroup g ∧ g.head? ≠ some "-i") :
    (parseTokens gs.flatten st).opts.inputFile = st.inputFile := by
  induction gs generalizing st with
  | nil => rfl
  | cons g gs ih =>
    have hg := h g (List.mem_cons_self _ _)
    obtain ⟨st2, hst2, h2⟩ := parseTokens_group_keeps_inputFile g st hg.1 hg.2
    rw [List.flatten_cons, h2, ← hst2]
    exact ih st2 (fun g hg => h g (List.mem_cons_of_mem _ hg))

theorem parseTokens_keeps_outputFile (gs : List (List String)) (st : Options)
    (h : ∀ g ∈ gs, IsGroup g ∧ g.head? ≠ some "-o") :
    (parseTokens gs.flatten st).opts.outputFile = st.outputFile := by
  induction gs generalizing st with
  | nil => rfl
  | cons g gs ih =>
    have hg := h g (List.mem_cons_self _ _)
    obtain ⟨st2, hst2, h2⟩ := parseTokens_group_keeps_outputFile g st hg.1 hg.2
    rw [List.flatten_cons, h2, ← hst2]
    exact ih st2 (fun g hg => h g (List.mem_cons_of_mem _ hg))

/-- C5. `processCommandLine` returns `false` (success) exactly when the tokens
from index 1 on split, left to right, into groups `["-h"]`, `["--help"]`,
`["--version"]`, `["-i", x]`, `["-o", x]`, and returns `true` (failure)
otherwise; element 0 has no influence on the result. After any program name,
`-h` and `--version` succeed and set their flag, and `-i a.txt -o b.txt`
succeeds with both file names stored. -/
theorem processCommandLine_succeeds_iff :
    (∀ (cmdLineArgs : List String) (st : Options),
        ((processCommandLine cmdLineArgs st).failed = false
            ↔ SplitsIntoGroups (cmdLineArgs.drop 1))
        ∧ ((processCommandLine cmdLineArgs st).failed = true
            ↔ ¬ SplitsIntoGroups (cmdLineArgs.drop 1)))
      ∧ (∀ (p q : String) (toks : List String) (st : Options),
          processCommandLine (p :: toks) st = processCommandLine (q :: toks) st)
      ∧ (∀ (p : String) (st : Options),
          processCommandLine [p, "-h"] st
            = { failed := false, opts := { st with helpRequested := true }, cerr := "" })
      ∧ (∀ (p : String) (st : Options),
          processCommandLine [p, "--version"] st
            = { failed := false, opts := { st with versionRequested := true }, cerr := "" })
      ∧ (∀ (p : String) (st : Options),
          processCommandLine [p, "-i", "a.txt", "-o", "b.txt"] st
            = { failed := false,
                opts := { st with inputFile := "a.txt", outputFile := "b.txt" },
                cerr := "" }) := by
  refine ⟨fun cmdLineArgs st => ⟨?_, ?_⟩, ?_, ?_, ?_, ?_⟩
  · rw [processCommandLine_eq]
    exact parseTokens_ok_iff _ st
  · rw [processCommandLine_eq, ← parseTokens_ok_iff _ st]
    simp
  · intro p q toks st
    rw [processCommandLine_eq, processCommandLine_eq]
    rfl
  · intro p st
    rw [processCommandLine_eq]
    rfl
  · intro p st
    rw [processCommandLine_eq]
    rfl
  · intro p st
    rw [processCommandLine_eq]
    rfl

/-- C6. When `-i` (or `-o`) stands in option position as the last token, that
is when the tokens after the program name are `L ++ [flag]` with `L` a sequence
of complete groups, `processCommandLine` fails and the text it sends to
`std::cerr` is the message that this flag requires a filename argument. -/
theorem processCommandLine_missing_filename (cmdLineArgs L : List String) (flag : String)
    (st : Options) (hflag : flag = "-i" ∨ flag = "-o")
    (hargs : cmdLineArgs.drop 1 = L ++ [flag]) (hL : SplitsIntoGroups L) :
    (processCommandLine cmdLineArgs st).failed = true
      ∧ (processCommandLine cmdLineArgs st).cerr
          = "[error] " ++ flag ++ " requires a filename argument\n" := by
  have hok := (parseTokens_ok_iff L st).2 hL
  rw [processCommandLine_eq, hargs, parseTokens_append L _ st hok]
  rcases hflag with rfl | rfl
  · rw [parseTokens_i_nil]
    exact ⟨rfl, rfl⟩
  · rw [parseTokens_o_nil]
    exact ⟨rfl, rfl⟩

theorem processCommandLine_missing_filename_witness :
    (processCommandLine ["mpags-cipher", "-i"] initialOptions).failed = true
      ∧ (processCommandLine ["mpags-cipher", "-i"] initialOptions).cerr
          = "[error] -i requires a filename argument\n"
      ∧ (processCommandLine ["mpags-cipher", "--version", "-o", "b.txt", "-o"]
          initialOptions).cerr = "[error] -o requires a filename argument\n" :=
  ⟨(processCommandLine_missing_filename ["mpags-cipher", "-i"] [] "-i" initialOptions
      (Or.inl rfl) rfl ⟨[], rfl, by simp⟩).1,
   (processCommandLine_missing_filename ["mpags-cipher", "-i"] [] "-i" initialOptions
      (Or.inl rfl) rfl ⟨[], rfl, by simp⟩).2,
   (processCommandLine_missing_filename ["mpags-cipher", "--version", "-o", "b.txt", "-o"]
      ["--version", "-o", "b.txt"] "-o" initialOptions (Or.inr rfl) rfl
      ⟨[["--version"], ["-o", "b.txt"]], rfl, by simp [IsGroup]⟩).2⟩

/-- C7. Options are recognised by exact string equality. When the first token
in option position that is not one of `-h`, `--help`, `--version`, `-i`, `-o`
is `t` (the tokens after the program name are `L ++ t :: rest` with `L` a
sequence of complete groups), `processCommandLine` fails, the text sent to
`std::cerr` is the unknown-argument message naming `t`, and the whole result is
the same whatever tokens follow `t`. None of `-x`, `--hel`, `-hi`, `-H` and
the empty token is an option. -/
theorem processCommandLine_unknown_argument (cmdLineArgs L rest : List String) (t : String)
    (st : Options) (hargs : cmdLineArgs.drop 1 = L ++ t :: rest)
    (hL : SplitsIntoGroups L) (ht : ¬ IsOption t) :
    (processCommandLine cmdLineArgs st).failed = true
      ∧ (processCommandLine cmdLineArgs st).cerr
          = "[error] unknown argument '" ++ t ++ "'\n"
      ∧ (∀ (args2 rest2 : List String), args2.drop 1 = L ++ t :: rest2 →
          processCommandLine args2 st = processCommandLine cmdLineArgs st)
      ∧ (∀ u ∈ ["-x", "--hel", "-hi", "-H", ""], ¬ IsOption u) := by
  have hok := (parseTokens_ok_iff L st).2 hL
  have key : ∀ (args2 rest2 : List String), args2.drop 1 = L ++ t :: rest2 →
      processCommandLine args2 st
        = { failed := true, opts := (parseTokens L st).opts,
            cerr := "[error] unknown argument '" ++ t ++ "'\n" } := by
    intro args2 rest2 h2
    rw [processCommandLine_eq, h2, parseTokens_append L _ st hok,
      parseTokens_unknown t rest2 _ ht]
  refine ⟨?_, ?_, ?_, by decide⟩
  · rw [key cmdLineArgs rest hargs]
  · rw [key cmdLineArgs rest hargs]
  · intro args2 rest2 h2
    rw [key cmdLineArgs rest hargs, key args2 rest2 h2]

theorem processCommandLine_unknown_argument_witness :
    (processCommandLine ["mpags-cipher", "-h", "--hel", "-i"] initialOptions).failed = true
      ∧ (processCommandLine ["mpags-cipher", "-h", "--hel", "-i"] initialOptions).cerr
          = "[error] unknown argument '--hel'\n" :=
  ⟨(processCommandLine_unknown_argument ["mpags-cipher", "-h", "--hel", "-i"] ["-h"] ["-i"]
      "--hel" initialOptions rfl ⟨[["-h"]], rfl, by simp [IsGroup]⟩ (by decide)).1,
   (processCommandLine_unknown_argument ["mpags-cipher", "-h", "--hel", "-i"] ["-h"] ["-i"]
      "--hel" initialOptions rfl ⟨[["-h"]], rfl, by simp [IsGroup]⟩ (by decide)).2.1⟩

/-- C8, the claim as stated fails. After the failing call on
`-h -i a.txt -x` the flag `helpRequested` and the string `inputFile` hold what
the options before `-x` assigned, not what they held before the call. -/
theorem processCommandLine_failure_keeps_writes :
    ¬ (∀ (cmdLineArgs : List String) (st : Options),
        (processCommandLine cmdLineArgs st).failed = true →
          (processCommandLine cmdLineArgs st).opts = st) := by
  intro h
  have h1 := h ["mpags-cipher", "-h", "-i", "a.txt", "-x"] initialOptions
  rw [processCommandLine_eq] at h1
  exact absurd (h1 rfl) (by decide)

/-- C8, amended. When `processCommandLine` fails, there is an index `k ≥ 1` of
the vector holding the offending token (a token that is no option, or a final
`-i`/`-o`), and the four reference parameters hold exactly the values that a
call on the vector cut before index `k` leaves, a call that succeeds: the
options before the offending token have been applied, nothing else has. In
particular, when the offending token is the first token after the program name
(`k = 1`), the parameters have the values they had before the call. -/
theorem processCommandLine_failure_state (cmdLineArgs : List String) (st : Options)
    (h : (processCommandLine cmdLineArgs st).failed = true) :
    ∃ k, 1 ≤ k ∧ k < cmdLineArgs.length ∧ Offending cmdLineArgs k
      ∧ processCommandLine (cmdLineArgs.take k) st
          = { failed := false, opts := (processCommandLine cmdLineArgs st).opts, cerr := "" }
      ∧ (k = 1 → (processCommandLine cmdLineArgs st).opts = st) := by
  rw [processCommandLine_eq] at h
  cases cmdLineArgs with
  | nil => cases h
  | cons p toks =>
    obtain ⟨k, hk, hoff, heq⟩ := parseTokens_failed toks st h
    refine ⟨k + 1, by omega, by simpa using hk, offending_cons p toks k hoff, ?_, ?_⟩
    · rw [processCommandLine_eq, processCommandLine_eq]
      exact heq
    · intro hk1
      have hk0 : k = 0 := by omega
      subst hk0
      rw [processCommandLine_eq]
      have := congrArg ParseResult.opts heq
      exact this.symm

theorem processCommandLine_failure_state_witness :
    ∃ k, 1 ≤ k ∧ k < ["mpags-cipher", "-h", "-i", "a.txt", "-x"].length
      ∧ Offending ["mpags-cipher", "-h", "-i", "a.txt", "-x"] k
      ∧ processCommandLine (["mpags-cipher", "-h", "-i", "a.txt", "-x"].take k) initialOptions
          = { failed := false,
              opts := (processCommandLine ["mpags-cipher", "-h", "-i", "a.txt", "-x"]
                initialOptions).opts,
              cerr := "" }
      ∧ (k = 1 → (processCommandLine ["mpags-cipher", "-h", "-i", "a.txt", "-x"]
                initialOptions).opts = initialOptions) :=
  processCommandLine_failure_state ["mpags-cipher", "-h", "-i", "a.txt", "-x"] initialOptions
    (by rw [processCommandLine_eq]; rfl)

/-- C9, the claim as stated fails at the empty argument vector: the call on it
succeeds, but in `[] ++ ["-i", y]` the token `-i` stands at index 0, which is
never inspected, and `y` stands in option position, so the call fails whenever
`y` is not a complete option sequence. -/
theorem processCommandLine_last_write_empty_vector :
    ¬ (∀ (L : List String) (y : String) (st : Options),
        (processCommandLine L st).failed = false →
          (processCommandLine (L ++ ["-i", y]) st).failed = false
            ∧ (processCommandLine (L ++ ["-i", y]) st).opts.inputFile = y) := by
  intro h
  have h1 := h [] "a.txt" initialOptions (by rw [processCommandLine_eq]; rfl)
  rw [processCommandLine_eq] at h1
  exact absurd h1.1 (by decide)

/-- C9, amended. For every argument vector `L` that holds at least the program
name and on which `processCommandLine` succeeds, and every token `y`, the call
on `L ++ ["-i", y]` succeeds with `inputFile = y` and the three other
parameters as the call on `L` leaves them; likewise for `-o` and `outputFile`.
When further complete groups follow, none of them a `-i` group, the call still
succeeds with `inputFile = y`: on success `inputFile` is the token after the
last `-i` in option position. Likewise for `-o`. -/
theorem processCommandLine_last_write_wins (L : List String) (y : String) (st : Options)
    (hne : L ≠ []) (hok : (processCommandLine L st).failed = false) :
    processCommandLine (L ++ ["-i", y]) st
        = { failed := false,
            opts := { (processCommandLine L st).opts with inputFile := y },
            cerr := "" }
      ∧ processCommandLine (L ++ ["-o", y]) st
        = { failed := false,
            opts := { (processCommandLine L st).opts with outputFile := y },
            cerr := "" }
      ∧ (∀ gs : List (List String), (∀ g ∈ gs, IsGroup g ∧ g.head? ≠ some "-i") →
          (processCommandLine (L ++ ["-i", y] ++ gs.flatten) st).failed = false
            ∧ (processCommandLine (L ++ ["-i", y] ++ gs.flatten) st).opts.inputFile = y)
      ∧ (∀ gs : List (List String), (∀ g ∈ gs, IsGroup g ∧ g.head? ≠ some "-o") →
          (processCommandLine (L ++ ["-o", y] ++ gs.flatten) st).failed = false
            ∧ (processCommandLine (L ++ ["-o", y] ++ gs.flatten) st).opts.outputFile = y) := by
  cases L with
  | nil => exact absurd rfl hne
  | cons p toks =>
    rw [processCommandLine_eq] at hok
    have hok2 : (parseTokens toks st).failed = false := hok
    have hdrop : ∀ X : List String, List.drop 1 (p :: toks ++ X) = toks ++ X := fun _ => rfl
    have hL : processCommandLine (p :: toks) st = parseTokens toks st :=
      processCommandLine_eq _ st
    refine ⟨?_, ?_, ?_, ?_⟩
    · rw [processCommandLine_eq, hdrop, parseTokens_append toks _ st hok2, hL,
        parseTokens_i_cons]
      rfl
    · rw [processCommandLine_eq, hdrop, parseTokens_append toks _ st hok2, hL,
        parseTokens_o_cons]
      rfl
    · intro gs hgs
      rw [List.append_assoc, processCommandLine_eq, hdrop,
        parseTokens_append toks _ st hok2]
      simp only [List.cons_append, List.nil_append]
      rw [parseTokens_i_cons]
      exact ⟨parseTokens_of_groups gs _ (fun g hg => (hgs g hg).1),
        parseTokens_keeps_inputFile gs _ hgs⟩
    · intro gs hgs
      rw [List.append_assoc, processCommandLine_eq, hdrop,
        parseTokens_append toks _ st hok2]
      simp only [List.cons_append, List.nil_append]
      rw [parseTokens_o_cons]
      exact ⟨parseTokens_of_groups gs _ (fun g hg => (hgs g hg).1),
        parseTokens_keeps_outputFile gs _ hgs⟩

theorem processCommandLine_last_write_wins_witness :
    processCommandLine (["mpags-cipher", "-i", "a.txt", "-h"] ++ ["-i", "b.txt"]) initialOptions
      = { failed := false,
          opts := { (processCommandLine ["mpags-cipher", "-i", "a.txt", "-h"]
                      initialOptions).opts with inputFile := "b.txt" },
          cerr := "" } :=
  (processCommandLine_last_write_wins ["mpags-cipher", "-i", "a.txt", "-h"] "b.txt"
    initialOptions (by simp) (by rw [processCommandLine_eq]; rfl)).1

/-! ## The driver -/

theorem transformChar_of_isspace (c : Char) (h : isspace c = true) : transformChar c = "" := by
  have hlt : c.toNat < 48 := by
    unfold isspace at h
    simp only [Bool.or_eq_true, Bool.and_eq_true, decide_eq_true_eq] at h
    omega
  apply transformChar_other
  · rintro (⟨h1, h2⟩ | ⟨h1, h2⟩)
    · have : 97 ≤ c.toNat := h1
      omega
    · have : 65 ≤ c.toNat := h1
      omega
  · rintro ⟨h1, h2⟩
    have : 48 ≤ c.toNat := h1
    omega

theorem extractChar_cons_space (c : Char) (cs : List Char) (h : isspace c = true) :
    extractChar (c :: cs) = extractChar cs := by
  unfold extractChar
  rw [List.dropWhile_cons_of_pos h]

theorem extractChar_cons_char (c : Char) (cs : List Char) (h : isspace c = false) :
    extractChar (c :: cs) = some (c, cs) := by
  unfold extractChar
  rw [List.dropWhile_cons_of_neg (by simp [h])]

theorem readLoop_of_none (cin : List Char) (acc : String) (h : extractChar cin = none) :
    readLoop cin acc = acc := by
  rw [readLoop]
  split
  · rfl
  · rename_i heq
    rw [h] at heq
    cases heq

theorem readLoop_of_some (cin rest : List Char) (c : Char) (acc : String)
    (h : extractChar cin = some (c, rest)) :
    readLoop cin acc = readLoop rest (acc ++ transformChar c) := by
  rw [readLoop]
  split
  · rename_i heq
    rw [h] at heq
    cases heq
  · rename_i heq
    rw [h] at heq
    cases heq
    rfl

theorem readLoop_nil (acc : String) : readLoop [] acc = acc :=
  readLoop_of_none [] acc rfl

theorem readLoop_cons_space (c : Char) (cs : List Char) (acc : String)
    (h : isspace c = true) : readLoop (c :: cs) acc = readLoop cs acc := by
  cases hcs : extractChar cs with
  | none =>
    rw [readLoop_of_none cs acc hcs,
      readLoop_of_none (c :: cs) acc (by rw [extractChar_cons_space c cs h, hcs])]
  | some pr =>
    obtain ⟨d, rest⟩ := pr
    rw [readLoop_of_some cs rest d acc hcs,
      readLoop_of_some (c :: cs) rest d acc (by rw [extractChar_cons_space c cs h, hcs])]

theorem readLoop_cons_char (c : Char) (cs : List Char) (acc : String)
    (h : isspace c = false) :
    readLoop (c :: cs) acc = readLoop cs (acc ++ transformChar c) :=
  readLoop_of_some (c :: cs) cs c acc (extractChar_cons_char c cs h)

/-- The read loop appends to the accumulator the transliteration of the whole
input: the whitespace that the extraction skips would have added nothing. -/
theorem readLoop_eq (cin : List Char) (acc : String) :
    readLoop cin acc = acc ++ transliterate cin := by
  induction cin generalizing acc with
  | nil => rw [readLoop_nil, transliterate, String.append_empty]
  | cons c cs ih =>
    cases hsp : isspace c with
    | true =>
      rw [readLoop_cons_space c cs acc hsp, ih, transliterate,
        transformChar_of_isspace c hsp, String.empty_append]
    | false =>
      rw [readLoop_cons_char c cs acc hsp, ih, transliterate, String.append_assoc]

theorem transliterate_append (xs ys : List Char) :
    transliterate (xs ++ ys) = transliterate xs ++ transliterate ys := by
  induction xs with
  | nil => rw [List.nil_append, transliterate, String.empty_append]
  | cons c cs ih => rw [List.cons_append, transliterate, transliterate, ih, String.append_assoc]

theorem transliterate_length (xs : List Char) :
    (transliterate xs).length = (xs.map (fun c => (transformChar c).length)).sum := by
  induction xs with
  | nil => rfl
  | cons c cs ih =>
    rw [transliterate, String.length_append, ih, List.map_cons, List.sum_cons]

theorem main_processing (argv : List String) (cin : List Char)
    (hok : (processCommandLine argv initialOptions).failed = false)
    (hh : (processCommandLine argv initialOptions).opts.helpRequested = false)
    (hv : (processCommandLine argv initialOptions).opts.versionRequested = false) :
    (main argv cin).cout = readLoop cin "" ++ "\n" ∧ (main argv cin).exitStatus = 0 := by
  unfold main
  simp only [hok, hh, hv, Bool.false_eq_true, if_false, and_self]

/-- C4. On the processing path (the parse succeeds and neither help nor
version is requested) the text written to `std::cout` is, for every content of
standard input, the concatenation in input order of `transformChar` of each
input character, followed by one line terminator, and `main` returns 0. The
transliterated text `out xs = readLoop xs ""` distributes over concatenation of
inputs and its length is the sum of the lengths of the per-character results.
The input `ab1 C!` gives `ABONEC`. -/
theorem main_transliterates (argv : List String) (cin : List Char)
    (hok : (processCommandLine argv initialOptions).failed = false)
    (hh : (processCommandLine argv initialOptions).opts.helpRequested = false)
    (hv : (processCommandLine argv initialOptions).opts.versionRequested = false) :
    (main argv cin).cout = transliterate cin ++ "\n"
      ∧ (main argv cin).exitStatus = 0
      ∧ readLoop cin "" = transliterate cin
      ∧ (∀ xs ys : List Char, readLoop (xs ++ ys) "" = readLoop xs "" ++ readLoop ys "")
      ∧ (∀ xs ys : List Char,
          (main argv (xs ++ ys)).cout = readLoop xs "" ++ (main argv ys).cout)
      ∧ (∀ xs : List Char,
          (readLoop xs "").length = (xs.map (fun c => (transformChar c).length)).sum)
      ∧ (main argv cin).cout.length
          = (cin.map (fun c => (transformChar c).length)).sum + 1
      ∧ (main argv "ab1 C!".toList).cout = "ABONEC\n" := by
  have hr : ∀ xs : List Char, readLoop xs "" = transliterate xs := fun xs => by
    rw [readLoop_eq, String.empty_append]
  have hm : ∀ xs : List Char, (main argv xs).cout = transliterate xs ++ "\n" := fun xs => by
    rw [(main_processing argv xs hok hh hv).1, hr]
  refine ⟨hm cin, (main_processing argv cin hok hh hv).2, hr cin, ?_, ?_, ?_, ?_, ?_⟩
  · intro xs ys
    rw [hr, hr, hr, transliterate_append]
  · intro xs ys
    rw [hm, hm, hr, transliterate_append, String.append_assoc]
  · intro xs
    rw [hr, transliterate_length]
  · rw [hm, String.length_append, transliterate_length]
    rfl
  · rw [hm]
    decide

theorem main_transliterates_witness :
    (main ["mpags-cipher"] "ab1 C!".toList).cout = "ABONEC\n"
      ∧ (main ["mpags-cipher", "-i", "a.txt"] "ab1 C!".toList).cout = "ABONEC\n" :=
  ⟨(main_transliterates ["mpags-cipher"] "ab1 C!".toList
      (by rw [processCommandLine_eq]; rfl) (by rw [processCommandLine_eq]; rfl)
      (by rw [processCommandLine_eq]; rfl)).2.2.2.2.2.2.2,
   (main_transliterates ["mpags-cipher", "-i", "a.txt"] "ab1 C!".toList
      (by rw [processCommandLine_eq]; rfl) (by rw [processCommandLine_eq]; rfl)
      (by rw [processCommandLine_eq]; rfl)).1⟩

theorem main_short_circuit (argv : List String) (cin : List Char)
    (hok : (processCommandLine argv initialOptions).failed = false) :
    ((processCommandLine argv initialOptions).opts.helpRequested = true →
        main argv cin = { exitStatus := 0, cout := helpText, cerr := "" })
      ∧ ((processCommandLine argv initialOptions).opts.helpRequested = false →
          (processCommandLine argv initialOptions).opts.versionRequested = true →
            main argv cin = { exitStatus := 0, cout := "0.1.0\n", cerr := "" }) := by
  have hcerr := parseTokens_cerr (argv.drop 1) initialOptions
    (by rw [← processCommandLine_eq]; exact hok)
  rw [← processCommandLine_eq] at hcerr
  constructor
  · intro hh
    unfold main
    simp only [hok, hh, hcerr, Bool.false_eq_true, if_false, if_true]
  · intro hh hv
    unfold main
    simp only [hok, hh, hv, hcerr, Bool.false_eq_true, if_false, if_true]
    rfl

/-- C10. The driver checks help before version. For every argument vector
that parses successfully with `versionRequested` set and every content of
standard input, `main` returns 0 and writes nothing to `std::cerr`; when
`helpRequested` is set as well it writes the usage text to `std::cout`, which
is not the version line, and when `helpRequested` is not set it writes exactly
`0.1.0` followed by a line terminator. -/
theorem main_help_before_version (argv : List String) (cin : List Char)
    (hok : (processCommandLine argv initialOptions).failed = false)
    (hv : (processCommandLine argv initialOptions).opts.versionRequested = true) :
    (main argv cin).exitStatus = 0
      ∧ (main argv cin).cerr = ""
      ∧ (main argv cin).cout
          = (if (processCommandLine argv initialOptions).opts.helpRequested = true
              then helpText else "0.1.0\n")
      ∧ helpText ≠ "0.1.0\n" := by
  have hsc := main_short_circuit argv cin hok
  cases hh : (processCommandLine argv initialOptions).opts.helpRequested with
  | true =>
    rw [hsc.1 hh]
    exact ⟨rfl, rfl, rfl, by decide⟩
  | false =>
    rw [hsc.2 hh hv]
    exact ⟨rfl, rfl, rfl, by decide⟩

theorem main_help_before_version_witness :
    (main ["mpags-cipher", "--version", "-h"] "ab1 C!".toList).cout = helpText
      ∧ (main ["mpags-cipher", "--version"] "ab1 C!".toList).cout = "0.1.0\n" :=
  ⟨(main_help_before_version ["mpags-cipher", "--version", "-h"] "ab1 C!".toList
      (by rw [processCommandLine_eq]; rfl) (by rw [processCommandLine_eq]; rfl)).2.2.1.trans
      (by rw [processCommandLine_eq]; rfl),
   (main_help_before_version ["mpags-cipher", "--version"] "ab1 C!".toList
      (by rw [processCommandLine_eq]; rfl) (by rw [processCommandLine_eq]; rfl)).2.2.1.trans
      (by rw [processCommandLine_eq]; rfl)⟩

/-! ## The driver and the parser together -/

/-- The driver with the parser and the read loop replaced by their structural
views. -/
theorem main_eval (argv : List String) (cin : List Char) :
    main argv cin =
      (if (parseTokens (argv.drop 1) initialOptions).failed = true then
        { exitStatus := 1, cout := "",
          cerr := (parseTokens (argv.drop 1) initialOptions).cerr }
      else if (parseTokens (argv.drop 1) initialOptions).opts.helpRequested = true then
        { exitStatus := 0, cout := helpText,
          cerr := (parseTokens (argv.drop 1) initialOptions).cerr }
      else if (parseTokens (argv.drop 1) initialOptions).opts.versionRequested = true then
        { exitStatus := 0, cout := "0.1.0" ++ "\n",
          cerr := (parseTokens (argv.drop 1) initialOptions).cerr }
      else
        { exitStatus := 0, cout := transliterate cin ++ "\n",
          cerr := (parseTokens (argv.drop 1) initialOptions).cerr
            ++ (if (parseTokens (argv.drop 1) initialOptions).opts.inputFile ≠ "" then
                "[warning] input from file ('"
                  ++ (parseTokens (argv.drop 1) initialOptions).opts.inputFile
                  ++ "') not implemented yet, using stdin\n"
              else "")
            ++ (if (parseTokens (argv.drop 1) initialOptions).opts.outputFile ≠ "" then
                "[warning] output to file ('"
                  ++ (parseTokens (argv.drop 1) initialOptions).opts.outputFile
                  ++ "') not implemented yet, using stdout\n"
              else "") }) := by
  unfold main
  simp only [processCommandLine_eq, readLoop_eq, String.empty_append]

/-- The parser never resets `helpRequested`. -/
theorem parseTokens_help_mono (toks : List String) (st : Options)
    (h : st.helpRequested = true) : (parseTokens toks st).opts.helpRequested = true := by
  induction toks, st using parseTokens.induct with
  | case1 st => exact h
  | case2 t rest st ht ih => rw [parseTokens_help t rest st ht]; exact ih rfl
  | case3 rest st _ ih => rw [parseTokens_version]; exact ih h
  | case4 st _ _ => rw [parseTokens_i_nil]; exact h
  | case5 st x rest2 _ _ ih => rw [parseTokens_i_cons]; exact ih h
  | case6 st _ _ _ => rw [parseTokens_o_nil]; exact h
  | case7 st x rest2 _ _ _ ih => rw [parseTokens_o_cons]; exact ih h
  | case8 t rest st h1 h2 h3 h4 =>
    rw [parseTokens_unknown t rest st (by unfold IsOption; tauto)]
    exact h

/-- The parser never resets `versionRequested`. -/
theorem parseTokens_version_mono (toks : List String) (st : Options)
    (h : st.versionRequested = true) : (parseTokens toks st).opts.versionRequested = true := by
  induction toks, st using parseTokens.induct with
  | case1 st => exact h
  | case2 t rest st ht ih => rw [parseTokens_help t rest st ht]; exact ih h
  | case3 rest st _ ih => rw [parseTokens_version]; exact ih rfl
  | case4 st _ _ => rw [parseTokens_i_nil]; exact h
  | case5 st x rest2 _ _ ih => rw [parseTokens_i_cons]; exact ih h
  | case6 st _ _ _ => rw [parseTokens_o_nil]; exact h
  | case7 st x rest2 _ _ _ ih => rw [parseTokens_o_cons]; exact ih h
  | case8 t rest st h1 h2 h3 h4 =>
    rw [parseTokens_unknown t rest st (by unfold IsOption; tauto)]
    exact h

/-- C11, the claim as stated fails. In `-i -h` the token `-h` is the file name
of `-i`, not an option: the parse succeeds without `helpRequested`, and the
driver transliterates standard input instead of printing the help text. -/
theorem main_help_token_as_filename :
    ¬ (∀ (argv : List String) (cin : List Char),
        (processCommandLine argv initialOptions).failed = false →
          "-h" ∈ argv.drop 1 →
            (main argv cin).cout = helpText) := by
  intro h
  have h1 := h ["mpags-cipher", "-i", "-h"] ['a'] (by rw [processCommandLine_eq]; rfl)
    (by decide)
  rw [main_eval] at h1
  exact absurd h1 (by decide)

/-- C11, amended. For every argument vector that parses successfully and in
which the token `-h` occurs in option position (the tokens after the program
name are `L ++ "-h" :: rest` with `L` a sequence of complete groups), `main`
writes the help text to `std::cout`, nothing to `std::cerr`, and returns 0,
whatever standard input contains: no character of it reaches the output. -/
theorem main_help_in_option_position (argv L rest : List String) (cin : List Char)
    (hargs : argv.drop 1 = L ++ "-h" :: rest) (hL : SplitsIntoGroups L)
    (hok : (processCommandLine argv initialOptions).failed = false) :
    main argv cin = { exitStatus := 0, cout := helpText, cerr := "" }
      ∧ (∀ cin2 : List Char, main argv cin2 = main argv cin) := by
  have hLok := (parseTokens_ok_iff L initialOptions).2 hL
  have hhelp : (processCommandLine argv initialOptions).opts.helpRequested = true := by
    rw [processCommandLine_eq, hargs, parseTokens_append L _ _ hLok,
      parseTokens_help "-h" rest _ (Or.inl rfl)]
    exact parseTokens_help_mono rest _ rfl
  have hall : ∀ xs : List Char,
      main argv xs = { exitStatus := 0, cout := helpText, cerr := "" } :=
    fun xs => (main_short_circuit argv xs hok).1 hhelp
  exact ⟨hall cin, fun cin2 => by rw [hall cin2, hall cin]⟩

theorem main_help_in_option_position_witness :
    main ["mpags-cipher", "-i", "-h", "-h", "--version"] "ab1 C!".toList
      = { exitStatus := 0, cout := helpText, cerr := "" } :=
  (main_help_in_option_position ["mpags-cipher", "-i", "-h", "-h", "--version"]
    ["-i", "-h"] ["--version"] "ab1 C!".toList rfl
    ⟨[["-i", "-h"]], rfl, by simp [IsGroup]⟩ (by rw [processCommandLine_eq]; rfl)).1

/-- C12. For every argument vector and every content of standard input, `main`
returns 1 exactly when `processCommandLine` fails, and 0 in every other case;
a failing parse has stopped at an offending token (a token that is no option,
or a final `-i`/`-o` without file name), and when `main` returns 1 nothing is
written to `std::cout`. -/
theorem main_exit_status (argv : List String) (cin : List Char) :
    ((main argv cin).exitStatus = 1
        ↔ (processCommandLine argv initialOptions).failed = true)
      ∧ ((main argv cin).exitStatus = 0
        ↔ (processCommandLine argv initialOptions).failed = false)
      ∧ ((processCommandLine argv initialOptions).failed = true →
          ∃ k, k < (argv.drop 1).length ∧ Offending (argv.drop 1) k)
      ∧ ((main argv cin).exitStatus = 1 → (main argv cin).cout = "") := by
  cases hf : (processCommandLine argv initialOptions).failed with
  | false =>
    have hexit : (main argv cin).exitStatus = 0 := by
      unfold main
      simp only [hf, Bool.false_eq_true, if_false]
      split_ifs <;> rfl
    rw [hexit]
    refine ⟨by decide, by decide, ?_, ?_⟩
    · intro h
      cases h
    · intro h
      cases h
  | true =>
    have hmain : main argv cin
        = { exitStatus := 1, cout := "",
            cerr := (processCommandLine argv initialOptions).cerr } := by
      unfold main
      simp only [hf, if_true]
    rw [hmain]
    refine ⟨by simp, by simp, ?_, ?_⟩
    · intro _
      rw [processCommandLine_eq] at hf
      obtain ⟨k, hk, hoff, _⟩ := parseTokens_failed _ _ hf
      exact ⟨k, hk, hoff⟩
    · intro _
      rfl

/-- C14. The token after `-i` or `-o` in option position is taken verbatim as
the file name and is never read as an option: for every program name and every
token `x`, the call on `[prog, "-i", x]` succeeds, stores `x` in `inputFile`
and changes nothing else, so `helpRequested` and `versionRequested` stay false;
this holds for `x` equal to `-h`, `--version`, `-i`, `-o` and `-x` as for any
other token. Likewise `[prog, "-o", x]` succeeds and changes only `outputFile`,
to `x`. In any option position (after a sequence `L` of complete groups) the
pair `-i x` or `-o x` only stores `x`, and the scan goes on with the token
after `x`: each token is consumed once. -/
theorem processCommandLine_filename_verbatim :
    (∀ (prog x : String) (st : Options),
        processCommandLine [prog, "-i", x] st
          = { failed := false, opts := { st with inputFile := x }, cerr := "" })
      ∧ (∀ (prog x : String),
          (processCommandLine [prog, "-i", x] initialOptions).failed = false
            ∧ (processCommandLine [prog, "-i", x] initialOptions).opts.inputFile = x
            ∧ (processCommandLine [prog, "-i", x] initialOptions).opts.helpRequested = false
            ∧ (processCommandLine [prog, "-i", x] initialOptions).opts.versionRequested
                = false)
      ∧ (∀ x ∈ ["-h", "--version", "-i", "-o", "-x"],
          processCommandLine ["mpags-cipher", "-i", x] initialOptions
            = { failed := false,
                opts := { helpRequested := false, versionRequested := false,
                          inputFile := x, outputFile := "" },
                cerr := "" })
      ∧ (∀ (prog x : String) (st : Options),
          processCommandLine [prog, "-o", x] st
            = { failed := false, opts := { st with outputFile := x }, cerr := "" })
      ∧ (∀ x ∈ ["-h", "--help", "--version", "-i", "-o", "-x"],
          processCommandLine ["mpags-cipher", "-o", x] initialOptions
            = { failed := false,
                opts := { helpRequested := false, versionRequested := false,
                          inputFile := "", outputFile := x },
                cerr := "" })
      ∧ (∀ (prog x : String) (L rest : List String) (st : Options), SplitsIntoGroups L →
          processCommandLine (prog :: (L ++ "-i" :: x :: rest)) st
            = processCommandLine (prog :: rest)
                { (processCommandLine (prog :: L) st).opts with inputFile := x })
      ∧ (∀ (prog x : String) (L rest : List String) (st : Options), SplitsIntoGroups L →
          processCommandLine (prog :: (L ++ "-o" :: x :: rest)) st
            = processCommandLine (prog :: rest)
                { (processCommandLine (prog :: L) st).opts with outputFile := x }) := by
  have key : ∀ (prog x : String) (st : Options),
      processCommandLine [prog, "-i", x] st
        = { failed := false, opts := { st with inputFile := x }, cerr := "" } := by
    intro prog x st
    rw [processCommandLine_eq]
    exact parseTokens_i_cons x [] st
  have keyo : ∀ (prog x : String) (st : Options),
      processCommandLine [prog, "-o", x] st
        = { failed := false, opts := { st with outputFile := x }, cerr := "" } := by
    intro prog x st
    rw [processCommandLine_eq]
    exact parseTokens_o_cons x [] st
  have htail : ∀ (prog : String) (toks : List String) (st : Options),
      processCommandLine (prog :: toks) st = parseTokens toks st :=
    fun prog toks st => processCommandLine_eq (prog :: toks) st
  refine ⟨key, ?_, ?_, keyo, ?_, ?_, ?_⟩
  · intro prog x
    rw [key]
    exact ⟨rfl, rfl, rfl, rfl⟩
  · intro x _
    rw [key]
    rfl
  · intro x _
    rw [keyo]
    rfl
  · intro prog x L rest st hL
    rw [htail, htail, htail, parseTokens_append L _ st ((parseTokens_ok_iff L st).2 hL),
      parseTokens_i_cons]
  · intro prog x L rest st hL
    rw [htail, htail, htail, parseTokens_append L _ st ((parseTokens_ok_iff L st).2 hL),
      parseTokens_o_cons]

theorem main_of_program_name_only (argv : List String) (cin : List Char) :
    main (argv.take 1) cin
      = { exitStatus := 0, cout := transliterate cin ++ "\n", cerr := "" } := by
  have hdrop : (argv.take 1).drop 1 = [] := by
    cases argv <;> rfl
  rw [main_eval, hdrop]
  rfl

theorem main_processing_cerr (argv : List String) (cin : List Char)
    (hok : (processCommandLine argv initialOptions).failed = false)
    (hh : (processCommandLine argv initialOptions).opts.helpRequested = false)
    (hv : (processCommandLine argv initialOptions).opts.versionRequested = false) :
    (main argv cin).cerr
      = (if (processCommandLine argv initialOptions).opts.inputFile ≠ "" then
          inputFileWarning (processCommandLine argv initialOptions).opts.inputFile else "")
        ++ (if (processCommandLine argv initialOptions).opts.outputFile ≠ "" then
          outputFileWarning (processCommandLine argv initialOptions).opts.outputFile
            else "") := by
  have hcerr := parseTokens_cerr (argv.drop 1) initialOptions
    (by rw [← processCommandLine_eq]; exact hok)
  rw [← processCommandLine_eq] at hcerr
  unfold main
  simp only [hok, hh, hv, hcerr, Bool.false_eq_true, if_false, String.empty_append]
  rfl

theorem parseTokens_last_inputFile (L : List String) (y : String)
    (gs : List (List String)) (st : Options) (hL : SplitsIntoGroups L)
    (hgs : ∀ g ∈ gs, IsGroup g ∧ g.head? ≠ some "-i") :
    (parseTokens (L ++ ["-i", y] ++ gs.flatten) st).opts.inputFile = y := by
  rw [List.append_assoc, parseTokens_append L _ st ((parseTokens_ok_iff L st).2 hL)]
  simp only [List.cons_append, List.nil_append]
  rw [parseTokens_i_cons]
  exact parseTokens_keeps_inputFile gs _ hgs

theorem parseTokens_last_outputFile (L : List String) (y : String)
    (gs : List (List String)) (st : Options) (hL : SplitsIntoGroups L)
    (hgs : ∀ g ∈ gs, IsGroup g ∧ g.head? ≠ some "-o") :
    (parseTokens (L ++ ["-o", y] ++ gs.flatten) st).opts.outputFile = y := by
  rw [List.append_assoc, parseTokens_append L _ st ((parseTokens_ok_iff L st).2 hL)]
  simp only [List.cons_append, List.nil_append]
  rw [parseTokens_o_cons]
  exact parseTokens_keeps_outputFile gs _ hgs

/-- C13, the claim as stated fails. With `-i ""` the parse succeeds without
help or version and a path has been supplied with `-i`, yet nothing is written
to `std::cerr`: the driver takes an empty `inputFile` for "no file given". And
with `-i a.txt -i b.txt` the only warning names `b.txt`; the path `a.txt` is
not announced. -/
theorem main_no_warning_for_empty_path :
    (processCommandLine ["mpags-cipher", "-i", ""] initialOptions).failed = false
      ∧ (processCommandLine ["mpags-cipher", "-i", ""] initialOptions).opts.helpRequested
          = false
      ∧ (processCommandLine ["mpags-cipher", "-i", ""] initialOptions).opts.versionRequested
          = false
      ∧ (main ["mpags-cipher", "-i", ""] "ab1 C!".toList).cerr = ""
      ∧ (main ["mpags-cipher", "-i", "a.txt", "-i", "b.txt"] "ab1 C!".toList).cerr
          = "[warning] input from file ('b.txt') not implemented yet, using stdin\n" := by
  refine ⟨?_, ?_, ?_, ?_, ?_⟩
  · rw [processCommandLine_eq]; rfl
  · rw [processCommandLine_eq]; rfl
  · rw [processCommandLine_eq]; rfl
  · rw [main_eval]; rfl
  · rw [main_eval]; rfl

/-- C13, amended. File options are accepted but inert, and the file names in
force are announced when they are not empty: for every argument vector that
parses successfully without help or version, the text on `std::cerr` is the
input-file warning naming the final `inputFile` if that is not the empty
string, followed by the output-file warning naming the final `outputFile` if
that is not the empty string, and nothing else; the final `inputFile` is the
path of the last `-i` in option position (likewise `outputFile`), so a
non-empty path given with the last `-i` is named in a warning. The text on
`std::cout` is the text written for the same standard input with no option at
all. -/
theorem main_file_options_inert (argv : List String) (cin : List Char)
    (hok : (processCommandLine argv initialOptions).failed = false)
    (hh : (processCommandLine argv initialOptions).opts.helpRequested = false)
    (hv : (processCommandLine argv initialOptions).opts.versionRequested = false) :
    (main argv cin).cerr
        = (if (processCommandLine argv initialOptions).opts.inputFile ≠ "" then
            inputFileWarning (processCommandLine argv initialOptions).opts.inputFile
              else "")
          ++ (if (processCommandLine argv initialOptions).opts.outputFile ≠ "" then
            outputFileWarning (processCommandLine argv initialOptions).opts.outputFile
              else "")
      ∧ (main argv cin).cout = (main (argv.take 1) cin).cout
      ∧ (main argv cin).cout = transliterate cin ++ "\n"
      ∧ (∀ (L : List String) (y : String) (gs : List (List String)),
          argv.drop 1 = L ++ ["-i", y] ++ gs.flatten → SplitsIntoGroups L →
          (∀ g ∈ gs, IsGroup g ∧ g.head? ≠ some "-i") → y ≠ "" →
            ∃ post, (main argv cin).cerr = inputFileWarning y ++ post)
      ∧ (∀ (L : List String) (y : String) (gs : List (List String)),
          argv.drop 1 = L ++ ["-o", y] ++ gs.flatten → SplitsIntoGroups L →
          (∀ g ∈ gs, IsGroup g ∧ g.head? ≠ some "-o") → y ≠ "" →
            ∃ pre, (main argv cin).cerr = pre ++ outputFileWarning y) := by
  have hcerr := main_processing_cerr argv cin hok hh hv
  have hcout : (main argv cin).cout = transliterate cin ++ "\n" := by
    rw [(main_processing argv cin hok hh hv).1, readLoop_eq, String.empty_append]
  refine ⟨hcerr, ?_, hcout, ?_, ?_⟩
  · rw [hcout, main_of_program_name_only]
  · intro L y gs hargs hL hgs hy
    have hfile : (processCommandLine argv initialOptions).opts.inputFile = y := by
      rw [processCommandLine_eq, hargs]
      exact parseTokens_last_inputFile L y gs _ hL hgs
    rw [hcerr, hfile, if_pos hy]
    exact ⟨_, rfl⟩
  · intro L y gs hargs hL hgs hy
    have hfile : (processCommandLine argv initialOptions).opts.outputFile = y := by
      rw [processCommandLine_eq, hargs]
      exact parseTokens_last_outputFile L y gs _ hL hgs
    rw [hcerr, hfile, if_pos hy]
    exact ⟨_, rfl⟩

theorem main_file_options_inert_witness :
    (main ["mpags-cipher", "-i", "a.txt", "-o", "b.txt"] "ab1 C!".toList).cerr
        = inputFileWarning "a.txt" ++ outputFileWarning "b.txt"
      ∧ (main ["mpags-cipher", "-i", "a.txt", "-o", "b.txt"] "ab1 C!".toList).cout
        = (main ["mpags-cipher"] "ab1 C!".toList).cout :=
  ⟨(main_file_options_inert ["mpags-cipher", "-i", "a.txt", "-o", "b.txt"] "ab1 C!".toList
      (by rw [processCommandLine_eq]; rfl) (by rw [processCommandLine_eq]; rfl)
      (by rw [processCommandLine_eq]; rfl)).1.trans (by rw [processCommandLine_eq]; rfl),
   (main_file_options_inert ["mpags-cipher", "-i", "a.txt", "-o", "b.txt"] "ab1 C!".toList
      (by rw [processCommandLine_eq]; rfl) (by rw [processCommandLine_eq]; rfl)
      (by rw [processCommandLine_eq]; rfl)).2.1⟩

/-! ## Frame of the parser -/

theorem optionTokens_cons (t : String) (rest : List String) :
    optionTokens (t :: rest) =
      if t = "-h" ∨ t = "--help" ∨ t = "--version" then
        t :: optionTokens rest
      else if t = "-i" ∨ t = "-o" then
        match rest with
        | [] => [t]
        | _ :: rest2 => t :: optionTokens rest2
      else
        [t] := by
  cases rest <;> simp only [optionTokens]

theorem optionTokens_flag (t : String) (rest : List String)
    (h : t = "-h" ∨ t = "--help" ∨ t = "--version") :
    optionTokens (t :: rest) = t :: optionTokens rest := by
  rw [optionTokens_cons, if_pos h]

theorem optionTokens_file (t x : String) (rest : List String) (h : t = "-i" ∨ t = "-o") :
    optionTokens (t :: x :: rest) = t :: optionTokens rest := by
  rw [optionTokens_cons]
  rcases h with rfl | rfl <;> simp

/-- A field whose option is not read in option position keeps its value. -/
theorem parseTokens_frame (toks : List String) (st : Options) :
    (("-h" ∉ optionTokens toks ∧ "--help" ∉ optionTokens toks) →
        (parseTokens toks st).opts.helpRequested = st.helpRequested)
      ∧ ("--version" ∉ optionTokens toks →
          (parseTokens toks st).opts.versionRequested = st.versionRequested)
      ∧ ("-i" ∉ optionTokens toks →
          (parseTokens toks st).opts.inputFile = st.inputFile)
      ∧ ("-o" ∉ optionTokens toks →
          (parseTokens toks st).opts.outputFile = st.outputFile) := by
  induction toks, st using parseTokens.induct with
  | case1 st => exact ⟨fun _ => rfl, fun _ => rfl, fun _ => rfl, fun _ => rfl⟩
  | case2 t rest st ht ih =>
    rw [parseTokens_help t rest st ht,
      optionTokens_flag t rest (by rcases ht with h | h <;> simp [h])]
    simp only [List.mem_cons, not_or]
    refine ⟨fun h => ?_, fun h => ih.2.1 h.2, fun h => ih.2.2.1 h.2, fun h => ih.2.2.2 h.2⟩
    rcases ht with rfl | rfl
    · exact absurd rfl h.1.1
    · exact absurd rfl h.2.1
  | case3 rest st _ ih =>
    rw [parseTokens_version, optionTokens_flag _ rest (by simp)]
    simp only [List.mem_cons, not_or]
    exact ⟨fun h => ih.1 ⟨h.1.2, h.2.2⟩, fun h => absurd trivial h.1, fun h => ih.2.2.1 h.2,
      fun h => ih.2.2.2 h.2⟩
  | case4 st _ _ =>
    rw [parseTokens_i_nil]
    exact ⟨fun _ => rfl, fun _ => rfl, fun _ => rfl, fun _ => rfl⟩
  | case5 st x rest2 _ _ ih =>
    rw [parseTokens_i_cons, optionTokens_file "-i" x rest2 (Or.inl rfl)]
    simp only [List.mem_cons, not_or]
    exact ⟨fun h => ih.1 ⟨h.1.2, h.2.2⟩, fun h => ih.2.1 h.2, fun h => absurd trivial h.1,
      fun h => ih.2.2.2 h.2⟩
  | case6 st _ _ _ =>
    rw [parseTokens_o_nil]
    exact ⟨fun _ => rfl, fun _ => rfl, fun _ => rfl, fun _ => rfl⟩
  | case7 st x rest2 _ _ _ ih =>
    rw [parseTokens_o_cons, optionTokens_file "-o" x rest2 (Or.inr rfl)]
    simp only [List.mem_cons, not_or]
    exact ⟨fun h => ih.1 ⟨h.1.2, h.2.2⟩, fun h => ih.2.1 h.2, fun h => ih.2.2.1 h.2,
      fun h => absurd trivial h.1⟩
  | case8 t rest st h1 h2 h3 h4 =>
    rw [parseTokens_unknown t rest st (by unfold IsOption; tauto)]
    exact ⟨fun _ => rfl, fun _ => rfl, fun _ => rfl, fun _ => rfl⟩

/-- C15. Each recognised option changes only its own parameter and the scan
goes on: `-h`/`--help` set `helpRequested`, `--version` sets
`versionRequested`, `-i x` stores `x` in `inputFile`, `-o x` stores `x` in
`outputFile`. For every argument vector, failing or not, a parameter whose
option is not read in option position has after the call the value it had
before, and `helpRequested`/`versionRequested` that were true before the call
are true after it. -/
theorem processCommandLine_frame (cmdLineArgs : List String) (st : Options) :
    (("-h" ∉ optionTokens (cmdLineArgs.drop 1)
          ∧ "--help" ∉ optionTokens (cmdLineArgs.drop 1)) →
        (processCommandLine cmdLineArgs st).opts.helpRequested = st.helpRequested)
      ∧ ("--version" ∉ optionTokens (cmdLineArgs.drop 1) →
          (processCommandLine cmdLineArgs st).opts.versionRequested = st.versionRequested)
      ∧ ("-i" ∉ optionTokens (cmdLineArgs.drop 1) →
          (processCommandLine cmdLineArgs st).opts.inputFile = st.inputFile)
      ∧ ("-o" ∉ optionTokens (cmdLineArgs.drop 1) →
          (processCommandLine cmdLineArgs st).opts.outputFile = st.outputFile)
      ∧ (st.helpRequested = true →
          (processCommandLine cmdLineArgs st).opts.helpRequested = true)
      ∧ (st.versionRequested = true →
          (processCommandLine cmdLineArgs st).opts.versionRequested = true)
      ∧ (∀ (p t : String) (rest : List String), t = "-h" ∨ t = "--help" →
          processCommandLine (p :: t :: rest) st
            = processCommandLine (p :: rest) { st with helpRequested := true })
      ∧ (∀ (p : String) (rest : List String),
          processCommandLine (p :: "--version" :: rest) st
            = processCommandLine (p :: rest) { st with versionRequested := true })
      ∧ (∀ (p x : String) (rest : List String),
          processCommandLine (p :: "-i" :: x :: rest) st
            = processCommandLine (p :: rest) { st with inputFile := x })
      ∧ (∀ (p x : String) (rest : List String),
          processCommandLine (p :: "-o" :: x :: rest) st
            = processCommandLine (p :: rest) { st with outputFile := x }) := by
  have hf := parseTokens_frame (cmdLineArgs.drop 1) st
  rw [processCommandLine_eq]
  refine ⟨hf.1, hf.2.1, hf.2.2.1, hf.2.2.2, parseTokens_help_mono _ st,
    parseTokens_version_mono _ st, ?_, ?_, ?_, ?_⟩
  · intro p t rest ht
    rw [processCommandLine_eq, processCommandLine_eq]
    exact parseTokens_help t rest st ht
  · intro p rest
    rw [processCommandLine_eq, processCommandLine_eq]
    exact parseTokens_version rest st
  · intro p x rest
    rw [processCommandLine_eq, processCommandLine_eq]
    exact parseTokens_i_cons x rest st
  · intro p x rest
    rw [processCommandLine_eq, processCommandLine_eq]
    exact parseTokens_o_cons x rest st

/-! ## Index safety of the parser -/

theorem safeRun_step (cmdLineArgs : List String) (i j : Nat) (res : ParseResult)
    (run : Option (ParseResult × List Nat)) (hi : i < cmdLineArgs.length) (hij : i < j)
    (h : SafeRun cmdLineArgs j res run) :
    SafeRun cmdLineArgs i res (run.map (fun r => (r.1, i :: r.2))) := by
  obtain ⟨v, hrun, hlen, hmem, hpw⟩ := h
  refine ⟨i :: v, by rw [hrun]; rfl, ?_, ?_, ?_⟩
  · rw [List.length_cons]
    cases v with
    | nil => simp only [List.length_nil]; omega
    | cons a w =>
      have ha := hmem a (List.mem_cons_self _ _)
      omega
  · intro k hk
    rcases List.mem_cons.1 hk with rfl | hk2
    · exact ⟨le_refl _, hi⟩
    · have := hmem k hk2
      omega
  · rw [List.pairwise_cons]
    refine ⟨fun a ha => ?_, hpw⟩
    have := hmem a ha
    omega

theorem safeRun_stop (cmdLineArgs : List String) (i : Nat) (res : ParseResult)
    (hi : i < cmdLineArgs.length) :
    SafeRun cmdLineArgs i res (some (res, [i])) := by
  refine ⟨[i], rfl, ?_, ?_, List.pairwise_singleton _ _⟩
  · simp only [List.length_singleton]; omega
  · intro k hk
    rw [List.mem_singleton] at hk
    subst hk
    exact ⟨le_refl _, hi⟩

theorem processLoopMonitored_safe (cmdLineArgs : List String) (i : Nat) (st : Options)
    (h1 : 1 ≤ i) :
    SafeRun cmdLineArgs i (processLoop cmdLineArgs i st)
      (processLoopMonitored cmdLineArgs i st) := by
  generalize h : cmdLineArgs.length - i = n
  induction n using Nat.strong_induction_on generalizing i st with
  | _ n ih =>
    subst h
    rw [processLoop, processLoopMonitored]
    by_cases hi : i < cmdLineArgs.length
    · have step : ∀ st2, SafeRun cmdLineArgs (i + 1) (processLoop cmdLineArgs (i + 1) st2)
          (processLoopMonitored cmdLineArgs (i + 1) st2) :=
        fun st2 => ih _ (by omega) (i + 1) st2 (by omega) rfl
      have step2 : ∀ st2, SafeRun cmdLineArgs (i + 1 + 1)
          (processLoop cmdLineArgs (i + 1 + 1) st2)
          (processLoopMonitored cmdLineArgs (i + 1 + 1) st2) :=
        fun st2 => ih _ (by omega) (i + 1 + 1) st2 (by omega) rfl
      have hlen2 : ¬ cmdLineArgs.length < 2 := by omega
      simp only [dif_pos hi, List.getElem?_eq_getElem hi, if_neg hlen2]
      by_cases c1 : cmdLineArgs[i] = "-h" ∨ cmdLineArgs[i] = "--help"
      · simp only [if_pos c1]
        exact safeRun_step _ i (i + 1) _ _ hi (by omega) (step _)
      · simp only [if_neg c1]
        by_cases c2 : cmdLineArgs[i] = "--version"
        · simp only [if_pos c2]
          exact safeRun_step _ i (i + 1) _ _ hi (by omega) (step _)
        · simp only [if_neg c2]
          by_cases c3 : cmdLineArgs[i] = "-i"
          · simp only [if_pos c3]
            by_cases hlast : i = cmdLineArgs.length - 1
            · simp only [dif_pos hlast, if_pos hlast]
              exact safeRun_stop _ i _ hi
            · have hi2 : i + 1 < cmdLineArgs.length := by omega
              simp only [dif_neg hlast, if_neg hlast, List.getElem?_eq_getElem hi2]
              exact safeRun_step _ i (i + 1 + 1) _ _ hi (by omega) (step2 _)
          · simp only [if_neg c3]
            by_cases c4 : cmdLineArgs[i] = "-o"
            · simp only [if_pos c4]
              by_cases hlast : i = cmdLineArgs.length - 1
              · simp only [dif_pos hlast, if_pos hlast]
                exact safeRun_stop _ i _ hi
              · have hi2 : i + 1 < cmdLineArgs.length := by omega
                simp only [dif_neg hlast, if_neg hlast, List.getElem?_eq_getElem hi2]
                exact safeRun_step _ i (i + 1 + 1) _ _ hi (by omega) (step2 _)
            · simp only [if_neg c4]
              exact safeRun_stop _ i _ hi
    · simp only [dif_neg hi]
      exact ⟨[], rfl, Nat.zero_le _, fun k hk => absurd hk (List.not_mem_nil k),
        List.Pairwise.nil⟩

/-- C16. For every argument vector, the empty one and the one holding only the
program name included, the monitored run of the loop from index 1 is never
stopped: every read `cmdLineArgs[i]` and `cmdLineArgs[i + 1]` is within bounds
and `nCmdLineArgs - 1` is evaluated only with `nCmdLineArgs ≥ 2`. The run
returns what `processCommandLine` returns; the indices at which the loop body
is entered lie in `[1, size)`, strictly increase, and are at most `size - 1`
many, so the loop terminates after at most `size - 1` iterations. On the empty
vector and on a vector holding only the program name the body is never
entered. The start at index 1 matters: started at index 0 on the one-element
vector `["-i"]` the run is stopped. -/
theorem processCommandLine_index_safe (cmdLineArgs : List String) (st : Options) :
    (∃ visited : List Nat,
        processLoopMonitored cmdLineArgs 1 st
            = some (processCommandLine cmdLineArgs st, visited)
          ∧ visited.length ≤ cmdLineArgs.length - 1
          ∧ (∀ k ∈ visited, 1 ≤ k ∧ k < cmdLineArgs.length)
          ∧ visited.Pairwise (fun a b => a < b))
      ∧ processLoopMonitored [] 1 st
          = some ({ failed := false, opts := st, cerr := "" }, [])
      ∧ (∀ p : String, processLoopMonitored [p] 1 st
          = some ({ failed := false, opts := st, cerr := "" }, []))
      ∧ processLoopMonitored ["-i"] 0 st = none := by
  refine ⟨processLoopMonitored_safe cmdLineArgs 1 st (le_refl 1), ?_, ?_, ?_⟩
  · obtain ⟨v, hrun, hlen, _, _⟩ := processLoopMonitored_safe [] 1 st (le_refl 1)
    have hv : v = [] := List.length_eq_zero.1 (Nat.le_zero.1 hlen)
    rw [hrun, hv, processLoop_eq_parseTokens]
    rfl
  · intro p
    obtain ⟨v, hrun, hlen, _, _⟩ := processLoopMonitored_safe [p] 1 st (le_refl 1)
    have hv : v = [] := List.length_eq_zero.1 (Nat.le_zero.1 hlen)
    rw [hrun, hv, processLoop_eq_parseTokens]
    rfl
  · rw [processLoopMonitored]
    rfl

/-! ## Output alphabet, idempotence, whitespace -/

theorem transformChar_shape (c : Char) :
    (∀ d ∈ (transformChar c).toList, IsUpperLetter d)
      ∧ (transformChar c).length ∈ [0, 1, 3, 4, 5] := by
  by_cases hl : IsAsciiLetter c
  · have h := transformChar_of_letter c hl
    rw [h.2.2.1, h.2.1]
    refine ⟨?_, by decide⟩
    intro d hd
    rw [List.mem_singleton] at hd
    subst hd
    exact h.2.2.2.1
  · by_cases hd : IsAsciiDigit c
    · have hmem := digit_cases c hd
      simp only [List.mem_cons, List.mem_singleton, List.not_mem_nil, or_false] at hmem
      rcases hmem with rfl | rfl | rfl | rfl | rfl | rfl | rfl | rfl | rfl | rfl <;> decide
    · rw [transformChar_other c hl hd]
      decide

theorem transliterate_toList_cons (c : Char) (cs : List Char) :
    (transliterate (c :: cs)).toList = (transformChar c).toList ++ (transliterate cs).toList := by
  rw [transliterate]
  exact String.data_append _ _

theorem transliterate_upper (cin : List Char) :
    ∀ d ∈ (transliterate cin).toList, IsUpperLetter d := by
  induction cin with
  | nil =>
    intro d hd
    exact absurd hd (List.not_mem_nil d)
  | cons c cs ih =>
    intro d hd
    rw [transliterate_toList_cons, List.mem_append] at hd
    rcases hd with h | h
    · exact (transformChar_shape c).1 d h
    · exact ih d h

/-- C17. For every input character every character of the result of
`transformChar` is an uppercase ASCII letter `'A'..'Z'` and the result has
length 0, 1, 3, 4 or 5; hence for every input the text accumulated by the read
loop consists of letters `'A'..'Z'` only and holds no digit, lowercase letter,
whitespace or punctuation character. -/
theorem transformChar_output_alphabet :
    (∀ c : Char, (∀ d ∈ (transformChar c).toList, 'A' ≤ d ∧ d ≤ 'Z')
        ∧ (transformChar c).length ∈ [0, 1, 3, 4, 5])
      ∧ (∀ cin : List Char, ∀ d ∈ (readLoop cin "").toList, 'A' ≤ d ∧ d ≤ 'Z')
      ∧ (∀ cin : List Char, ∀ d ∈ (readLoop cin "").toList,
          ¬ IsAsciiDigit d ∧ ¬ ('a' ≤ d ∧ d ≤ 'z') ∧ isspace d = false) := by
  have hread : ∀ cin : List Char, ∀ d ∈ (readLoop cin "").toList, IsUpperLetter d := by
    intro cin d hd
    rw [readLoop_eq, String.empty_append] at hd
    exact transliterate_upper cin d hd
  refine ⟨transformChar_shape, hread, ?_⟩
  intro cin d hd
  obtain ⟨h1, h2⟩ := hread cin d hd
  have h1n : 65 ≤ d.toNat := h1
  have h2n : d.toNat ≤ 90 := h2
  refine ⟨?_, ?_, ?_⟩
  · rintro ⟨_, h4⟩
    have : d.toNat ≤ 57 := h4
    omega
  · rintro ⟨h3, _⟩
    have : 97 ≤ d.toNat := h3
    omega
  · unfold isspace
    simp only [Bool.or_eq_false_iff, Bool.and_eq_false_imp, decide_eq_false_iff_not,
      decide_eq_true_eq]
    omega

theorem transliterate_of_upper (l : List Char) (h : ∀ d ∈ l, IsUpperLetter d) :
    transliterate l = String.mk l := by
  induction l with
  | nil => rfl
  | cons d l ih =>
    have hd : IsUpperLetter d := h d (List.mem_cons_self _ _)
    have ht := transformChar_of_letter d (Or.inr hd)
    rw [transliterate, ih (fun e he => h e (List.mem_cons_of_mem _ he)), ht.1,
      ht.2.2.2.2.1 hd]
    rfl

theorem transliterate_idem (s : List Char) :
    transliterate (transliterate s).toList = transliterate s := by
  rw [transliterate_of_upper _ (transliterate_upper s)]
  rfl

/-- C18. Transliteration is idempotent on sequences: with `T s` the
concatenation of `transformChar` over the characters of `s`, which is what the
read loop accumulates, `T (T s) = T s` for every input `s`. -/
theorem transliteration_idempotent (s : List Char) :
    transliterate (transliterate s).toList = transliterate s
      ∧ readLoop (readLoop s "").toList "" = readLoop s ""
      ∧ readLoop s "" = transliterate s := by
  have hr : ∀ xs : List Char, readLoop xs "" = transliterate xs := fun xs => by
    rw [readLoop_eq, String.empty_append]
  refine ⟨transliterate_idem s, ?_, hr s⟩
  rw [hr s, hr, transliterate_idem]

theorem readLoopNoSkip_eq (cin : List Char) (acc : String) :
    readLoopNoSkip cin acc = acc ++ transliterate cin := by
  unfold readLoopNoSkip
  induction cin generalizing acc with
  | nil => rw [List.foldl_nil, transliterate, String.append_empty]
  | cons c cs ih => rw [List.foldl_cons, ih, transliterate, String.append_assoc]

theorem isspace_iff (c : Char) :
    isspace c = true ↔ c ∈ [' ', '\t', '\n', Char.ofNat 11, Char.ofNat 12, '\r'] := by
  constructor
  · intro h
    unfold isspace at h
    simp only [Bool.or_eq_true, Bool.and_eq_true, decide_eq_true_eq] at h
    have hc : Char.ofNat c.toNat = c := Char.ofNat_toNat c
    have h1 : 9 ≤ c.toNat := by omega
    have h2 : c.toNat ≤ 32 := by omega
    rw [← hc]
    generalize c.toNat = n at h h1 h2
    interval_cases n <;> first | decide | omega
  · intro h
    simp only [List.mem_cons, List.mem_singleton, List.not_mem_nil, or_false] at h
    rcases h with rfl | rfl | rfl | rfl | rfl | rfl <;> decide

theorem extractChar_skips (ws rest : List Char) (c : Char)
    (hws : ∀ w ∈ ws, isspace w = true) (hc : isspace c = false) :
    extractChar (ws ++ c :: rest) = some (c, rest) := by
  induction ws with
  | nil => exact extractChar_cons_char c rest hc
  | cons w ws ih =>
    rw [List.cons_append, extractChar_cons_space w _ (hws w (List.mem_cons_self _ _))]
    exact ih (fun v hv => hws v (List.mem_cons_of_mem _ hv))

/-- C19. The extraction `std::cin >> inputChar` discards the whitespace before
the character it delivers (space, tab, newline, vertical tab, form feed,
carriage return), so `transformChar` never sees it; yet for every input and
every accumulator the read loop of `main` accumulates exactly what a loop that
passes every character, whitespace included, to `transformChar` accumulates,
because `transformChar` maps each whitespace character to the empty string. -/
theorem readLoop_refines_noskip :
    (∀ (cin : List Char) (acc : String), readLoop cin acc = readLoopNoSkip cin acc)
      ∧ (∀ c : Char, isspace c = true
          ↔ c ∈ [' ', '\t', '\n', Char.ofNat 11, Char.ofNat 12, '\r'])
      ∧ (∀ c : Char, isspace c = true → transformChar c = "")
      ∧ (∀ (ws rest : List Char) (c : Char), (∀ w ∈ ws, isspace w = true) →
          isspace c = false → extractChar (ws ++ c :: rest) = some (c, rest))
      ∧ (∀ ws : List Char, (∀ w ∈ ws, isspace w = true) → extractChar ws = none)
      ∧ readLoop " a\tb\n 1 ".toList "" = "ABONE" := by
  refine ⟨?_, isspace_iff, transformChar_of_isspace, extractChar_skips, ?_, ?_⟩
  · intro cin acc
    rw [readLoop_eq, readLoopNoSkip_eq]
  · intro ws hws
    induction ws with
    | nil => rfl
    | cons w ws ih =>
      rw [extractChar_cons_space w _ (hws w (List.mem_cons_self _ _))]
      exact ih (fun v hv => hws v (List.mem_cons_of_mem _ hv))
  · rw [readLoop_eq]
    decide

end MpagsCipher
